import Mathlib

/-!
Verification of the libronda version-comparison and constraint-matching engine.

The definitions below are a shallow embedding of the Rust sources:
  * `src/core/src/version/comp_op.rs`      (CompOp)
  * `src/src/version/custom_parts/pep440.rs` (PEP440 release-stage strings)
  * `src/core/src/version/version_part.rs` (VersionPart and its ordering)
  * `src/src/version/version.rs`           (Version, compare_iter, compare_to)
  * `src/core/src/version/spec_trees.rs`   (ConstraintTree, treeify, untreeify,
                                            VersionSpec::try_from, evaluate)
  * `src/core/src/version/matching.rs`     (operator-token parsing, matchers)

Rust strings are modelled as `String` or `List Char` (byte order and char
order agree on the ASCII inputs this engine handles), machine integers as
`Int` (no arithmetic is performed on them, only comparison), and fallible or
panicking code as `Except`/`Option` (`none` models a panic).  Functions whose
source lives outside the extracted `src/` tree are explicitly marked
`Modelled from the spec:` in their doc comment.
-/

/-! ## Generic helpers -/

/-- Lexicographic comparison of char lists: the embedding of the `Ord`
instance of Rust `String` (byte-lexicographic; identical to per-char
comparison on ASCII data). -/
def lexCmp : List Char → List Char → Ordering
  | [], [] => .eq
  | [], _ :: _ => .lt
  | _ :: _, [] => .gt
  | a :: as, b :: bs =>
    match compare a b with
    | .eq => lexCmp as bs
    | o => o

/-- Substring test on char lists (embedding of a regex `is_match` for a
plain-text pattern). -/
def hasInfix (pat : List Char) : List Char → Bool
  | [] => pat.isEmpty
  | c :: rest => pat.isPrefixOf (c :: rest) || hasInfix pat rest

/-- Lowercasing a char list, used to model case-insensitive regexes and the
`UniCase` case-insensitive comparison. -/
def lowerL (cs : List Char) : List Char := cs.map Char.toLower

/-- Case-insensitive containment: models the Rust regex `(?i)pat` tested by
`is_match` (for a lowercase alphabetic `pat`). -/
def ciHas (cs : List Char) (pat : List Char) : Bool := hasInfix pat (lowerL cs)

/-! ## CompOp (src/core/src/version/comp_op.rs) -/

/-- Enum of supported comparison operators (`CompOp` in `comp_op.rs`). -/
inductive CompOp where
  | eq | ne | lt | le | ge | gt
  | startsWith | notStartsWith | compatible | incompatible
deriving DecidableEq, Repr

/-- Trim helper mirroring Rust `str::trim` at the `List Char` level. -/
def isWsC (c : Char) : Bool := c.isWhitespace

/-- Trim of a char list (Rust `str::trim`). -/
def trimL (cs : List Char) : List Char :=
  ((cs.dropWhile isWsC).reverse.dropWhile isWsC).reverse

/-- Trim of a string in terms of `trimL`. -/
def trimS (s : String) : String := String.mk (trimL s.data)

/-- Embedding of `CompOp::from_sign`. -/
def CompOp.from_sign (sign : String) : Except Unit CompOp :=
  match trimS sign with
  | "==" => .ok .eq
  | "!=" => .ok .ne
  | "<" => .ok .lt
  | "<=" => .ok .le
  | ">=" => .ok .ge
  | ">" => .ok .gt
  | "=" => .ok .startsWith
  | "!=startswith" => .ok .notStartsWith
  | "~=" => .ok .compatible
  | "!~=" => .ok .incompatible
  | _ => .error ()

/-! ## PEP440 release-stage strings (src/src/version/custom_parts/pep440.rs) -/

/-- Embedding of `compare_pep440_str`: the special comparison rule for
release-stage tokens.  `DEV_RE`/`POST_RE` are the case-insensitive regexes
`(?i)dev` and `(?i)post`; the final branch is the `UniCase` case-insensitive
lexicographic comparison. -/
def compare_pep440_str (left right : List Char) : Option Ordering :=
  match ciHas left ['p','o','s','t'], ciHas right ['p','o','s','t'] with
  | true, true => some .eq
  | false, true => some .lt
  | true, false => some .gt
  | false, false =>
    match left.isEmpty, right.isEmpty with
    | true, true => some .eq
    | false, true => some .lt
    | true, false => some .gt
    | false, false =>
      match ciHas left ['d','e','v'], ciHas right ['d','e','v'] with
      | true, true => some .eq
      | false, true => some .gt
      | true, false => some .lt
      | false, false => some (lexCmp (lowerL left) (lowerL right))

/-! ## VersionPart (src/core/src/version/version_part.rs) -/

/-- Embedding of the `VersionPart` enum.  `pep440` carries the `alpha` field
of `PEP440String`. -/
inductive VersionPart where
  | epoch (i : Int)
  | integer (i : Int)
  | lexStr (s : List Char)
  | pep440 (s : List Char)
  | empty
deriving DecidableEq, Repr

/-- Embedding of `ProvideEmptyImpl::get_empty`. -/
def VersionPart.get_empty : VersionPart → VersionPart
  | .epoch _ => .epoch 0
  | .integer _ => .integer 0
  | .lexStr _ => .lexStr []
  | .pep440 _ => .pep440 []
  | .empty => .empty

/-- Position of each variant in the declaration order, as used by the
default branch of `PartialOrd for VersionPart`. -/
def VersionPart.rankOf : VersionPart → Nat
  | .epoch _ => 0
  | .integer _ => 1
  | .lexStr _ => 2
  | .pep440 _ => 3
  | .empty => 4

/-- Embedding of `PartialOrd::partial_cmp for VersionPart` (named `cmpOpt`
here).  Same-variant pairs compare their payloads; every other pair falls to
the reversed comparison of the variant positions. -/
def VersionPart.cmpOpt : VersionPart → VersionPart → Option Ordering
  | .epoch a, .epoch b => some (compare a b)
  | .integer a, .integer b => some (compare a b)
  | .lexStr a, .lexStr b => some (lexCmp a b)
  | .pep440 a, .pep440 b => compare_pep440_str a b
  | a, b => some ((compare a.rankOf b.rankOf).swap)

/-! ## Version comparison (src/src/version/version.rs) -/

/-- Embedding of `Version::compare_iter` on the part lists of the two
versions.  `none` models the `panic!()` arms (reached only if a part
comparison were to return `None`).  Note that the arm for an exhausted
right-hand sequence returns immediately after comparing only the first
remaining left-hand part with its empty value (and symmetrically). -/
def compare_iter : List VersionPart → List VersionPart → Option CompOp
  | [], [] => some .eq
  | i :: _, [] =>
    match i.cmpOpt i.get_empty with
    | some .lt => some .lt
    | some .gt => some .gt
    | some .eq => some .eq
    | none => none
  | [], j :: _ =>
    match (VersionPart.get_empty j).cmpOpt j with
    | some .lt => some .lt
    | some .gt => some .gt
    | some .eq => some .eq
    | none => none
  | i :: is, j :: js =>
    match i.cmpOpt j with
    | some .gt => some .gt
    | some .lt => some .lt
    | some .eq => compare_iter is js
    | none => none

/-- Embedding of `Version::compare_to`: reduce `compare` to a three-way
result and test the operator against it.  `none` models the `unreachable!()`
arm and a panic inside `compare`. -/
def compare_to (a b : List VersionPart) (operator : CompOp) : Option Bool :=
  match compare_iter a b with
  | some .eq =>
    some (match operator with
          | .eq | .le | .ge => true
          | _ => false)
  | some .lt =>
    some (match operator with
          | .ne | .lt | .le => true
          | _ => false)
  | some .gt =>
    some (match operator with
          | .ne | .gt | .ge => true
          | _ => false)
  | some _ => none
  | none => none

/-- A parsed version: the original string plus its parts (the `Version`
struct of `version.rs`). -/
structure Version where
  version : String
  parts : List VersionPart
deriving Repr

/-- Modelled from the spec: the built-in conda-style version parser
(`conda_parser`, whose source file `parsers/conda.rs` is not under `src/`).
Per spec sections 2 and 3 it tokenizes the string into an ordered sequence of
parts: an `N!` prefix becomes an `Epoch`, maximal digit runs become
`Integer`s, maximal alphabetic runs become release-stage strings, and
separator characters (`.`, `-`, `_`, `+`) delimit components; an empty
version yields a single empty-string part. -/
def condaChunksF : Nat → List Char → List (List Char)
  | 0, _ => []
  | _, [] => []
  | fuel + 1, c :: rest =>
    if c = '.' ∨ c = '-' ∨ c = '_' ∨ c = '+' then condaChunksF fuel rest
    else if c.isDigit then
      (c :: rest.takeWhile Char.isDigit) :: condaChunksF fuel (rest.dropWhile Char.isDigit)
    else
      (c :: rest.takeWhile (fun x => !(x.isDigit ∨ x = '.' ∨ x = '-' ∨ x = '_' ∨ x = '+')))
        :: condaChunksF fuel (rest.dropWhile (fun x => !(x.isDigit ∨ x = '.' ∨ x = '-' ∨ x = '_' ∨ x = '+')))

/-- Modelled from the spec: token runs of a version string (fuelled driver). -/
def condaChunks (cs : List Char) : List (List Char) := condaChunksF (cs.length + 1) cs

/-- Digits of a char run to a natural number. -/
def digitsToNat (cs : List Char) : Nat :=
  cs.foldl (fun acc c => acc * 10 + (c.toNat - '0'.toNat)) 0

/-- Modelled from the spec: turn one token run into a `VersionPart`. -/
def condaPartOf (run : List Char) : VersionPart :=
  match run with
  | [] => .pep440 []
  | c :: _ => if c.isDigit then .integer (digitsToNat run) else .pep440 run

/-- Modelled from the spec: the conda-style parser producing the part list
of a version string (total on the inputs this development evaluates). -/
def condaParse (s : String) : List VersionPart :=
  match s.data.splitOn '!' with
  | epochRun :: restOfChunks :: moreChunks =>
    if epochRun.all Char.isDigit ∧ epochRun ≠ [] then
      VersionPart.epoch (digitsToNat epochRun)
        :: (condaChunks (List.intercalate ['!'] (restOfChunks :: moreChunks))).map condaPartOf
    else
      (condaChunks s.data).map condaPartOf
  | _ =>
    match condaChunks s.data with
    | [] => [.pep440 []]
    | chunks => chunks.map condaPartOf

/-- Construction of a `Version` from a string (`From<&str> for Version`,
unwrapping `Version::parse` with the conda parser). -/
def versionFrom (s : String) : Version := ⟨s, condaParse s⟩

/-- Embedding of `Version::compare`. -/
def Version.compare (a b : Version) : Option CompOp := compare_iter a.parts b.parts

/-- Embedding of `PartialEq for Version` (`compare_to(other, Eq)`). -/
def Version.veq (a b : Version) : Option Bool := compare_to a.parts b.parts .eq

/-! ## Constraint trees (src/core/src/version/spec_trees.rs) -/

/-- Embedding of the `Combinator` enum. -/
inductive Combinator where
  | or | and | none
deriving DecidableEq, Repr

/-- Embedding of `StringOrConstraintTree`: a leaf specifier string or a
nested tree (the tree is inlined as combinator plus child list so that the
type is a single nested inductive). -/
inductive SOCT where
  | str (s : String)
  | ctree (combinator : Combinator) (parts : List SOCT)

/-- Embedding of the `ConstraintTree` struct. -/
structure CTree where
  combinator : Combinator
  parts : List SOCT

mutual
/-- Embedding of `PartialEq for StringOrConstraintTree`. -/
def soctEq : SOCT → SOCT → Bool
  | .str a, .str b => a == b
  | .ctree _ ps, .ctree _ qs => zipEqParts ps qs
  | _, _ => false
/-- Embedding of `PartialEq for ConstraintTree` on part lists: zip the two
lists and require pairwise equality; surplus parts of the longer list are
never examined. -/
def zipEqParts : List SOCT → List SOCT → Bool
  | a :: as, b :: bs => soctEq a b && zipEqParts as bs
  | _, _ => true
end

/-- Embedding of `PartialEq for ConstraintTree` (the combinator field does
not participate). -/
def ctEq (a b : CTree) : Bool := zipEqParts a.parts b.parts

/-- Separator string used by `combine` for each combinator (`And` joins with
a comma, everything else with a pipe). -/
def sepStr (c : Combinator) : String :=
  match c with
  | .and => ","
  | _ => "|"

/-- Embedding of Rust `Vec::join` on strings. -/
def joinSep (sep : String) : List String → String
  | [] => ""
  | [x] => x
  | x :: y :: rest => x ++ sep ++ joinSep sep (y :: rest)

mutual
/-- Embedding of `ConstraintTree::combine` (the worker behind `untreeify`),
on a combinator plus part list.  A single non-string part or an empty part
list is an error; otherwise the rendered parts are joined with the
combinator separator and parenthesized when in an AND context or nested. -/
def combineT : Combinator → List SOCT → Bool → Bool → Except String String
  | _, [], _, _ => .error "Can\x27t combine (stringify) a zero-element ConstraintTree"
  | _, [p], _, _ =>
    match p with
    | .str s => .ok s
    | _ => .error "Can\x27t combine (stringify) single-element ConstraintTree that isn\x27t just a string"
  | comb, p :: q :: rest, inand, nested =>
    match combineStrs comb p, combineEach comb (q :: rest) with
    | .ok s1, .ok tl =>
      let res := joinSep (sepStr comb) (s1 :: tl)
      .ok (if inand || nested then "(" ++ res ++ ")" else res)
    | .error e, _ => .error e
    | .ok _, .error e => .error e
/-- Rendering of one part inside `combine`: strings pass through, nested
trees recurse with `inand` set when the surrounding combinator is `And` and
`nested` set. -/
def combineStrs : Combinator → SOCT → Except String String
  | _, .str s => .ok s
  | comb, .ctree c ps => combineT c ps (comb == Combinator.and) true
/-- Rendering of the remaining parts inside `combine`. -/
def combineEach : Combinator → List SOCT → Except String (List String)
  | _, [] => .ok []
  | comb, p :: rest =>
    match combineStrs comb p, combineEach comb rest with
    | .ok s, .ok tl => .ok (s :: tl)
    | .error e, _ => .error e
    | .ok _, .error e => .error e
end

/-- Embedding of `untreeify`. -/
def untreeify (spec : CTree) : Except String String :=
  combineT spec.combinator spec.parts false false

/-! ## Tokenizer and treeify (src/core/src/version/spec_trees.rs) -/

/-- Structural characters of the specifier grammar. -/
def isDelim (c : Char) : Bool := c == '(' || c == ')' || c == '|' || c == ','

/-- Embedding of the token regex
`\s*\^[^$]*[$]|\s*[()|,]|\s*[^()|,]+` applied by `find_iter` with each match
trimmed: at each position the three alternatives are tried in order
(anchored regex block, single structural character, maximal unstructured
run).  Fuelled so that the definition is structural; `fuel` at least the
length of the input is always sufficient. -/
def tokenizeL : Nat → List Char → List (List Char)
  | 0, _ => []
  | _, [] => []
  | fuel + 1, cs =>
    match cs.dropWhile isWsC with
    | [] => [trimL cs]
    | c :: r =>
      if c = '^' ∧ '$' ∈ r then
        ('^' :: r.takeWhile (fun ch => ch ≠ '$') ++ ['$'])
          :: tokenizeL fuel ((r.dropWhile (fun ch => ch ≠ '$')).drop 1)
      else if isDelim c then [c] :: tokenizeL fuel r
      else
        trimL (cs.takeWhile (fun ch => !isDelim ch))
          :: tokenizeL fuel (cs.dropWhile (fun ch => !isDelim ch))

/-- Combinator denoted by an operator character (`From<&str> for
Combinator`). -/
def comb_of (c : Char) : Combinator :=
  if c = ',' then .and else if c = '|' then .or else .none

/-- Fusing of an operand during `_apply_ops`: a child tree that carries the
same combinator contributes its parts (flattening), anything else
contributes itself. -/
def flatSame (c : Combinator) (p : SOCT) : List SOCT :=
  match p with
  | .ctree c2 ps => if c2 == c then ps else [.ctree c2 ps]
  | _ => [p]

/-- Embedding of `_apply_ops`: while the operator-stack top is not in the
stop set, pop one operator and fold the two most recently produced parts
into one node (flattening same-combinator children); fewer than two
available parts is a parse error. -/
def apply_ops (cstop : List Char) (output : CTree) (stack : List Char) :
    Except String (CTree × List Char) :=
  match stack with
  | [] => .ok (output, [])
  | top :: rest =>
    if top ∈ cstop then .ok (output, top :: rest)
    else
      match output.parts.reverse with
      | y :: x :: remRev =>
        let c := comb_of top
        let condensed := flatSame c x ++ flatSame c y
        let rem := remRev.reverse
        let output2 :=
          if rem.isEmpty then CTree.mk c condensed
          else CTree.mk output.combinator (rem ++ [SOCT.ctree c condensed])
        apply_ops cstop output2 rest
      | _ => .error "can\x27t join single expression"

/-- One step of the `treeify` token loop. -/
def step (st : CTree × List Char) (tok : List Char) :
    Except String (CTree × List Char) :=
  match tok with
  | ['('] => .ok (st.1, '(' :: st.2)
  | ['|'] =>
    match apply_ops ['('] st.1 st.2 with
    | .ok (o, s) => .ok (o, '|' :: s)
    | .error e => .error e
  | [','] =>
    match apply_ops ['|', '('] st.1 st.2 with
    | .ok (o, s) => .ok (o, ',' :: s)
    | .error e => .error e
  | [')'] =>
    match apply_ops ['('] st.1 st.2 with
    | .ok (o, s) =>
      match s with
      | '(' :: s2 => .ok (o, s2)
      | _ => .error "expression must start with \x22(\x22"
    | .error e => .error e
  | _ =>
    let o := if st.1.combinator == Combinator.none then st.1
             else CTree.mk .none [SOCT.ctree st.1.combinator st.1.parts]
    .ok (CTree.mk o.combinator (o.parts ++ [SOCT.str (String.mk tok)]), st.2)

/-- Token loop of `treeify`. -/
def runToks : List (List Char) → (CTree × List Char) → Except String (CTree × List Char)
  | [], st => .ok st
  | tok :: rest, st =>
    match step st tok with
    | .ok st2 => runToks rest st2
    | .error e => .error e

/-- Embedding of `treeify`: wrap the input in one outer paren pair, tokenize,
run the operator-stack machine, and fail if any operator is left on the
stack (the source formats the leftover stack into the message; the embedding
keeps just the fixed prefix). -/
def treeify (spec_str : String) : Except String CTree :=
  let cs := ("(" ++ spec_str ++ ")").data
  match runToks (tokenizeL (cs.length + 1) cs) (CTree.mk .none [], []) with
  | .error e => .error e
  | .ok (output, stack) =>
    if stack.isEmpty then .ok output
    else .error ("unable to convert (" ++ spec_str ++ ") to expression tree")

/-! ## Matcher layer (src/core/src/version/matching.rs and the VersionSpec
part of spec_trees.rs) -/

/-- Character class of the split regex `.*[()|,^$]` in
`VersionSpec::try_from`. -/
def splitClass (c : Char) : Bool :=
  c == '(' || c == ')' || c == '|' || c == ',' || c == '^' || c == '$'

/-- One match of the split regex `.*[()|,^$]` starting at the current search
position: `.` cannot cross a newline, matches prefer the leftmost start and
are greedy, so a match exists exactly when some class character occurs, it
starts at the beginning of the line holding the first class character, and
it ends after the last class character of that line.  Returns the piece
before the match and the text after it. -/
def rsplitStep (cs : List Char) : Option (List Char × List Char) :=
  match cs.findIdx? splitClass with
  | Option.none => Option.none
  | some q =>
    let beforeQ := cs.take q
    let p := beforeQ.length - (beforeQ.reverse.takeWhile (fun c => c ≠ '\n')).length
    let line := (cs.drop p).takeWhile (fun c => c ≠ '\n')
    let eRel := line.length - 1 - (line.reverse.findIdx? splitClass).getD 0
    some (cs.take p, cs.drop (p + eRel + 1))

/-- Fuelled driver of the regex split. -/
def rsplitGo : Nat → List Char → List (List Char)
  | 0, cs => [cs]
  | fuel + 1, cs =>
    match rsplitStep cs with
    | Option.none => [cs]
    | some (piece, rest) => piece :: rsplitGo fuel rest

/-- Embedding of `REGEX_SPLIT_RE.split(input)` from `VersionSpec::try_from`:
the pieces of `input` between matches of `.*[()|,^$]`.  Always yields at
least one piece (possibly empty), exactly like Rust `Regex::split`. -/
def rsplit (s : String) : List String :=
  (rsplitGo (s.data.length + 1) s.data).map String.mk

/-- Lookahead set of the relational-operator regex
`^(=|==|!=|<=|>=|<|>|~=)(?![=<>!~])(\S+)$`. -/
def lookaheadSet : List Char := ['=', '<', '>', '!', '~']

/-- Operator alternatives of the relational regex, in alternation order. -/
def opsList : List String := ["=", "==", "!=", "<=", ">=", "<", ">", "~="]

/-- Whether one alternative of the relational regex matches the whole input
with the remainder as version text: the alternative must be a prefix, the
next character must not be in the lookahead set, and the rest must be one or
more non-whitespace characters reaching the end of the input. -/
def opMatches (o : String) (input : List Char) : Bool :=
  o.data.isPrefixOf input &&
    (match input.drop o.data.length with
     | [] => false
     | c :: rest => !(c ∈ lookaheadSet) && !isWsC c && rest.all (fun x => !isWsC x))

/-- Embedding of the capture step of
`VERSION_RELATION_RE = ^(=|==|!=|<=|>=|<|>|~=)(?![=<>!~])(\S+)$`: the
alternation is tried leftmost-first, so the first alternative passing the
lookahead and leaving a non-empty whitespace-free remainder wins; the
captures are the operator text and the version text. -/
def captureRelational (input : String) : Option (String × String) :=
  match opsList.find? (fun o => opMatches o input.data) with
  | Option.none => Option.none
  | some o => some (o, String.mk (input.data.drop o.data.length))

/-- Test for a trailing `.*` on the version text (`v_str.ends_with(".*")`). -/
def endsDotStar (v : String) : Bool :=
  match v.data.reverse with
  | '*' :: '.' :: _ => true
  | _ => false

/-- Version text with the final two characters removed
(`&v_str[..v_str.len()-2]`). -/
def dropDotStar (v : String) : String :=
  String.mk (v.data.take (v.data.length - 2))

/-- Embedding of the `MatchEnum` matcher union of `matching.rs`. -/
inductive MatchEnum where
  | matchAny (tree : CTree)
  | matchAll (tree : CTree)
  | matchRegex (pattern : String)
  | matchOperator (operator : CompOp) (version : Version)
  | matchAlways
  | matchExact (spec : String)
  | matchNever

/-- Embedding of the `VersionSpec` struct of `spec_trees.rs`. -/
structure VersionSpec where
  spec_str : String
  tree : Option CTree
  matcher : MatchEnum
  is_exact : Bool

/-- Embedding of `create_match_enum_from_operator_str`: capture the operator
and version text, apply the trailing `.*` rules (`!=` becomes
not-starts-with, `~=` is rejected, otherwise the suffix is dropped), and
build an operator matcher.  The inner `none` models the `unwrap` panic on an
unrecognized sign (unreachable for captured operators). -/
def create_match_enum_from_operator_str (input : String) :
    Except String (Option (MatchEnum × Bool)) :=
  match captureRelational input with
  | Option.none => .error ("invalid operator in string " ++ input)
  | some (op0, v0) =>
    if endsDotStar v0 ∧ op0 = "~=" then
      .error ("invalid operator (~=) with \x27.*\x27 in spec string: " ++ input)
    else
      let op1 := if endsDotStar v0 ∧ op0 = "!=" then "!=startswith" else op0
      let v1 := if endsDotStar v0 then dropDotStar v0 else v0
      match CompOp.from_sign op1 with
      | .ok c => .ok (some (MatchEnum.matchOperator c (versionFrom v1), op1 == "=="))
      | .error _ => .ok Option.none

/-- Embedding of `From<ConstraintTree> for VersionSpec`: an `Or` tree gets an
any-matcher, everything else an all-matcher; the spec string is recomputed by
`untreeify`, whose `unwrap` panic is modelled by `none`; tree specs are never
exact. -/
def versionSpecOfTree (t : CTree) : Option VersionSpec :=
  match untreeify t with
  | .ok s =>
    some ⟨s, some t,
          (match t.combinator with
           | .or => MatchEnum.matchAny t
           | _ => MatchEnum.matchAll t), false⟩
  | .error _ => Option.none

/-- First byte of the input as a one-char string (`&input[..1]`; panics on an
empty input, modelled by the empty-list arm feeding an empty string that is
not in the operator set). -/
def firstCharSet (input : String) : Bool :=
  match input.data with
  | c :: _ => c == '=' || c == '<' || c == '>' || c == '!' || c == '~'
  | [] => false

/-- Whether the glob branch applies: the input with trailing stars stripped
still contains a star (`input.trim_end_matches("*").contains("*")`). -/
def innerStar (input : String) : Bool :=
  ((input.data.reverse.dropWhile (fun c => c == '*')).reverse).contains '*'

/-- Glob-to-regex rewriting of the embedded-wildcard branch (escape dots and
pluses, turn stars into `.*`, anchor the result). -/
def globPattern (input : String) : String :=
  "^(?:" ++ String.mk (input.data.flatMap
    (fun c => if c = '.' then ['\\', '.']
              else if c = '+' then ['\\', '+']
              else if c = '*' then ['.', '*'] else [c])) ++ ")$"

/-- Embedding of `TryFrom<&str> for VersionSpec`.  The outer `Except` is the
parse-error channel, the inner `Option` models panics.  Because
`REGEX_SPLIT_RE.split` always yields at least one piece, the first branch
(treeify and wrap the tree) is taken for every input and the classifier
below it is dead code; it is embedded nonetheless. -/
def VersionSpec.try_from (input : String) : Except String (Option VersionSpec) :=
  if (rsplit input).length > 0 then
    match treeify input with
    | .ok tree => .ok (versionSpecOfTree tree)
    | .error e => .error e
  else
    if input.startsWith "^" || input.endsWith "$" then
      if !(input.startsWith "^") || !(input.endsWith "$") then
        .error ("regex specs must start with \x27^\x27 and end with \x27$\x27 - spec \x27"
                ++ input ++ "\x27 is incorrect")
      else
        .ok (some ⟨input, Option.none, MatchEnum.matchRegex input, false⟩)
    else if firstCharSet input then
      match create_match_enum_from_operator_str input with
      | .ok (some (m, e)) => .ok (some ⟨input, Option.none, m, e⟩)
      | .ok Option.none => .ok Option.none
      | .error e => .error e
    else if input == "*" then
      .ok (some ⟨input, Option.none, MatchEnum.matchAlways, false⟩)
    else if innerStar input then
      .ok (some ⟨input, Option.none, MatchEnum.matchRegex (globPattern input), false⟩)
    else if input.endsWith "*" then
      .ok (some ⟨input, Option.none,
        MatchEnum.matchOperator CompOp.startsWith
          (versionFrom (String.mk ((input.data.reverse.dropWhile
            (fun c => c == '*' || c == '.')).reverse))), false⟩)
    else if !(input.data.contains '@') then
      .ok (some ⟨input, Option.none,
        MatchEnum.matchOperator CompOp.eq (versionFrom input), true⟩)
    else
      .ok (some ⟨input, Option.none, MatchEnum.matchExact input, true⟩)

/-- Modelled from the spec: `compare_to_version`, called by
`MatchOperator::test` but not present under `src/`.  Per spec section 4.1
the plain relational operators reduce to a single three-way comparison of
the candidate against the stored version, while the prefix and
compatible-release operators are range/prefix predicates: starts-with
truncates the candidate to the stored part count and compares for equality,
and compatible-release means at least the stored version and less than the
increment of its second-to-last component. -/
def compare_to_version (specv : Version) (op : CompOp) (cand : Version) : Option Bool :=
  match op with
  | .startsWith => some (compare_iter (cand.parts.take specv.parts.length) specv.parts == some .eq)
  | .notStartsWith => some (!(compare_iter (cand.parts.take specv.parts.length) specv.parts == some .eq))
  | .compatible =>
    let bound := (specv.parts.dropLast.dropLast) ++
      (match specv.parts.dropLast.getLast? with
       | some (.integer n) => [VersionPart.integer (n + 1)]
       | some p => [p]
       | Option.none => [])
    (compare_to cand.parts specv.parts .ge).bind (fun a =>
      (compare_to cand.parts bound .lt).map (fun b => a && b))
  | .incompatible =>
    let bound := (specv.parts.dropLast.dropLast) ++
      (match specv.parts.dropLast.getLast? with
       | some (.integer n) => [VersionPart.integer (n + 1)]
       | some p => [p]
       | Option.none => [])
    (compare_to cand.parts specv.parts .ge).bind (fun a =>
      (compare_to cand.parts bound .lt).map (fun b => !(a && b)))
  | _ => compare_to cand.parts specv.parts op

mutual
/-- Evaluation of one tree part against a candidate (the `_eval_part` helper
of `ConstraintTree::evaluate`): a string leaf is classified by
`VersionSpec::try_from` (its `unwrap` panic modelled by `none`) and tested
with `test_match`; a nested tree recurses.  `fuel` makes the mutual
recursion through parse-and-retest structural; every step consumes one
unit. -/
def evalPart : Nat → SOCT → String → Option Bool
  | 0, _, _ => Option.none
  | fuel + 1, .str val, other =>
    match VersionSpec.try_from val with
    | .ok (some vs) => test_match fuel vs other
    | _ => Option.none
  | fuel + 1, .ctree c ps, other => evaluateParts fuel c ps other

/-- Embedding of `ConstraintTree::evaluate` on combinator and parts: `And`
requires all parts, `Or` any part, and the `None` combinator hits the
`panic!()` arm (modelled by `none`). -/
def evaluateParts : Nat → Combinator → List SOCT → String → Option Bool
  | 0, _, _, _ => Option.none
  | fuel + 1, .and, parts, other => allParts fuel parts other
  | fuel + 1, .or, parts, other => anyParts fuel parts other
  | _ + 1, .none, _, _ => Option.none

/-- Short-circuiting `all` over parts (`Iterator::all`). -/
def allParts : Nat → List SOCT → String → Option Bool
  | 0, _, _ => Option.none
  | _ + 1, [], _ => some true
  | fuel + 1, p :: rest, other =>
    match evalPart fuel p other with
    | some true => allParts fuel rest other
    | some false => some false
    | Option.none => Option.none

/-- Short-circuiting `any` over parts (`Iterator::any`). -/
def anyParts : Nat → List SOCT → String → Option Bool
  | 0, _, _ => Option.none
  | _ + 1, [], _ => some false
  | fuel + 1, p :: rest, other =>
    match evalPart fuel p other with
    | some false => anyParts fuel rest other
    | some true => some true
    | Option.none => Option.none

/-- Modelled from the spec: `Spec::test_match` (the trait providing it is
not under `src/`; spec section 4.4): delegate to the selected matcher.  The
regex matcher is `MatchRegex::test`, which in `matching.rs` is
`panic!("Not implemented")`, modelled by `none`; the any/all matchers fold
over the stored tree parts exactly like `MatchAny::test`/`MatchAll::test`. -/
def test_match : Nat → VersionSpec → String → Option Bool
  | 0, _, _ => Option.none
  | fuel + 1, vs, other =>
    match vs.matcher with
    | .matchAlways => some true
    | .matchNever => some false
    | .matchExact spec => some (other == spec)
    | .matchRegex _ => Option.none
    | .matchOperator op v => compare_to_version v op (versionFrom other)
    | .matchAny t => anyParts fuel t.parts other
    | .matchAll t => allParts fuel t.parts other
end

/-- Embedding of `ConstraintTree::evaluate` on a tree value. -/
def evaluate (fuel : Nat) (t : CTree) (other : String) : Option Bool :=
  evaluateParts fuel t.combinator t.parts other

/-! ## Definitions used by the claim statements -/

/-- Three-way outcome of a comparison as a `CompOp`. -/
def ordToComp : Ordering → CompOp
  | .lt => .lt
  | .eq => .eq
  | .gt => .gt

/-- Comparison of a remaining left-hand tail against implicit empties, as
claim C6 states it. -/
def padLeft : List VersionPart → Option CompOp
  | [] => some .eq
  | i :: is =>
    match i.cmpOpt i.get_empty with
    | some .lt => some .lt
    | some .gt => some .gt
    | some .eq => padLeft is
    | none => none

/-- Comparison of implicit empties against a remaining right-hand tail, as
claim C6 states it. -/
def padRight : List VersionPart → Option CompOp
  | [] => some .eq
  | j :: js =>
    match (VersionPart.get_empty j).cmpOpt j with
    | some .lt => some .lt
    | some .gt => some .gt
    | some .eq => padRight js
    | none => none

/-- Version comparison as claim C6 states it: when one sequence is
exhausted, every remaining part of the longer sequence is compared against
the empty value of its own variant (written from the claim text, for
comparison against the source embedding `compare_iter`). -/
def compare_iter_padded : List VersionPart → List VersionPart → Option CompOp
  | [], [] => some .eq
  | i :: is, [] => padLeft (i :: is)
  | [], j :: js => padRight (j :: js)
  | i :: is, j :: js =>
    match i.cmpOpt j with
    | some .gt => some .gt
    | some .lt => some .lt
    | some .eq => compare_iter_padded is js
    | none => none

/-- PEP440 token ordering as claim C7 states it: a token containing `post`
wins over one that does not (two such tokens tie); otherwise an empty token
beats a non-empty one; otherwise a token containing `dev` loses to one that
does not (two such tokens tie); otherwise plain case-insensitive text
comparison (written from the claim text, for comparison against the source
embedding `compare_pep440_str`). -/
def pep440_claim_rule (l r : List Char) : Ordering :=
  let lp := ciHas l ['p','o','s','t']
  let rp := ciHas r ['p','o','s','t']
  if lp && rp then .eq
  else if lp then .gt
  else if rp then .lt
  else
    let le2 := l.isEmpty
    let re2 := r.isEmpty
    if le2 && re2 then .eq
    else if le2 then .gt
    else if re2 then .lt
    else
      let ld := ciHas l ['d','e','v']
      let rd := ciHas r ['d','e','v']
      if ld && rd then .eq
      else if ld then .lt
      else if rd then .gt
      else lexCmp (lowerL l) (lowerL r)

/-- Test for a part list with at least two elements. -/
def lengthAtLeast2 (ps : List SOCT) : Bool :=
  match ps with
  | _ :: _ :: _ => true
  | _ => false

/-- Canonical plain leaf: non-empty, free of structural characters, not
whitespace-trimmed away at either end, and not starting with a caret (so the
tokenizer classifies it by its unstructured-run alternative wherever it
appears). -/
def plainLeafOk (cs : List Char) : Bool :=
  match cs with
  | [] => false
  | c :: _ =>
    !(c == '^') && !isWsC c &&
    (match cs.getLast? with
     | some d => !isWsC d
     | Option.none => false) &&
    cs.all (fun x => !isDelim x)

/-- Canonical anchored-regex leaf: a caret, a body free of dollar signs, and
a final dollar sign (the exact shape produced by the regex alternative of
the tokenizer). -/
def regexLeafOk (cs : List Char) : Bool :=
  match cs with
  | [] => false
  | c :: rest =>
    c == '^' &&
    (match rest.getLast? with
     | some d => d == '$' && !(rest.dropLast.contains '$')
     | Option.none => false)

/-- Canonical leaf string. -/
def leafOk (s : String) : Bool := plainLeafOk s.data || regexLeafOk s.data

mutual
/-- Canonical tree part under a parent combinator: leaves are canonical
strings; child trees carry `And` or `Or`, differ from the parent combinator
(the parser flattens same-combinator runs), and have at least two canonical
parts. -/
def canonPart : Combinator → SOCT → Bool
  | _, .str s => leafOk s
  | parent, .ctree c ps =>
    (c == Combinator.and || c == Combinator.or) && !(c == parent) &&
      lengthAtLeast2 ps && canonParts c ps
/-- Canonical part lists. -/
def canonParts : Combinator → List SOCT → Bool
  | _, [] => true
  | parent, p :: rest => canonPart parent p && canonParts parent rest
end

/-- Canonical top-level tree: either a single canonical leaf under the
`None` combinator, or an `And`/`Or` node with at least two canonical,
combinator-alternating parts. -/
def canonTop (t : CTree) : Bool :=
  match t.parts with
  | [SOCT.str s] => t.combinator == Combinator.none && leafOk s
  | ps =>
    (t.combinator == Combinator.and || t.combinator == Combinator.or) &&
      lengthAtLeast2 ps && canonParts t.combinator ps

mutual
/-- Canonical rendering of one tree part (what `untreeify` produces for it):
leaves verbatim, child trees parenthesized. -/
def renderPart : SOCT → String
  | .str s => s
  | .ctree c ps => "(" ++ renderParts c ps ++ ")"
/-- Canonical rendering of a part list joined by the combinator separator. -/
def renderParts : Combinator → List SOCT → String
  | _, [] => ""
  | _, [p] => renderPart p
  | c, p :: q :: rest => renderPart p ++ sepStr c ++ renderParts c (q :: rest)
end

/-- Canonical rendering of a whole tree (no outer parentheses). -/
def renderTop (t : CTree) : String := renderParts t.combinator t.parts

/-- Separator token character of a combinator. -/
def sepChar (c : Combinator) : Char :=
  if c == Combinator.and then ',' else '|'

mutual
/-- Token sequence of one rendered part. -/
def partToks : SOCT → List (List Char)
  | .str s => [s.data]
  | .ctree c ps => ['('] :: innerToks c ps ++ [[')']]
/-- Token sequence of a rendered part list with separators. -/
def innerToks : Combinator → List SOCT → List (List Char)
  | _, [] => []
  | _, [p] => partToks p
  | c, p :: q :: rest => partToks p ++ [sepChar c] :: innerToks c (q :: rest)
end

/-- Token sequence of a rendered part-list tail: a separator before each
part. -/
def tailToks (c : Combinator) : List SOCT → List (List Char)
  | [] => []
  | p :: rest => [sepChar c] :: (partToks p ++ tailToks c rest)

/-- Structural single-character tokens. -/
def delimTok (t : List Char) : Bool :=
  t == ['('] || t == [')'] || t == ['|'] || t == [',']

/-- Whether a token list starts with a structural token (or is empty). -/
def headDelim (ts : List (List Char)) : Bool :=
  match ts with
  | [] => true
  | t :: _ => delimTok t

/-- Canonical token streams: every token is structural or a canonical leaf,
and a leaf token is always followed by a structural token. -/
def goodToks : List (List Char) → Bool
  | [] => true
  | t :: rest =>
    (if delimTok t then true
     else (plainLeafOk t || regexLeafOk t) && headDelim rest) &&
    goodToks rest

/-- Wrapping applied by the leaf-push arm of `step` when the accumulator
already carries a combinator. -/
def wrapIf (out : CTree) : CTree :=
  if out.combinator == Combinator.none then out
  else CTree.mk .none [SOCT.ctree out.combinator out.parts]

/-- Effect on the accumulator of processing one rendered part: a leaf is
appended after wrapping; a parenthesized group ends up appended as a child
tree, or becomes the whole accumulator when the accumulator was empty. -/
def pushPart (out : CTree) : SOCT → CTree
  | .str s => CTree.mk (wrapIf out).combinator ((wrapIf out).parts ++ [SOCT.str s])
  | .ctree c ps =>
    if (wrapIf out).parts.isEmpty then CTree.mk c ps
    else CTree.mk (wrapIf out).combinator ((wrapIf out).parts ++ [SOCT.ctree c ps])

/-- Non-tree-of-combinator-`c` test used by the flattening argument. -/
def noSame (c : Combinator) (p : SOCT) : Bool :=
  match p with
  | .ctree c2 _ => !(c2 == c)
  | _ => true

/-- Accumulator state in the middle of parsing a part list: after one part
the part stands alone (a lone group even forms the whole accumulator); after
two parts both stand unfused; from the third part on, the already-fused
prefix stands as one child followed by the latest part. -/
def midState (c : Combinator) (B vs : List SOCT) : CTree :=
  match vs with
  | [] => CTree.mk .none B
  | [SOCT.ctree c2 qs] =>
    if B.isEmpty then CTree.mk c2 qs
    else CTree.mk .none (B ++ [SOCT.ctree c2 qs])
  | [v] => CTree.mk .none (B ++ [v])
  | v1 :: v2 :: rest =>
    if rest.isEmpty then CTree.mk .none (B ++ [v1, v2])
    else CTree.mk .none
      (B ++ [SOCT.ctree c ((v1 :: v2 :: rest).dropLast),
             (v1 :: v2 :: rest).getLastD (SOCT.str "")])

/-- Accumulator state right after an operator fold over the parts seen so
far. -/
def foldState (c : Combinator) (B vs : List SOCT) : CTree :=
  if B.isEmpty then CTree.mk c vs
  else CTree.mk .none (B ++ [SOCT.ctree c vs])

/-- Operator-stack shape in the middle of parsing a part list. -/
def midStack (c : Combinator) (vs : List SOCT) (stk : List Char) : List Char :=
  match vs with
  | [_] => '(' :: stk
  | _ => sepChar c :: '(' :: stk

/-! ## Comparison lemmas -/

/-- Swap symmetry of integer comparison. -/
theorem intCompareSwap (a b : Int) : compare a b = (compare b a).swap := by
  rcases lt_trichotomy a b with h | h | h
  · simp [compare_lt_iff_lt.2 h, compare_gt_iff_gt.2 h, Ordering.swap]
  · simp [h, compare_eq_iff_eq.2 rfl, Ordering.swap]
  · simp [compare_lt_iff_lt.2 h, compare_gt_iff_gt.2 h, Ordering.swap]

/-- Swap symmetry of natural-number comparison. -/
theorem natCompareSwap (a b : Nat) : compare a b = (compare b a).swap := by
  rcases lt_trichotomy a b with h | h | h
  · simp [compare_lt_iff_lt.2 h, compare_gt_iff_gt.2 h, Ordering.swap]
  · simp [h, compare_eq_iff_eq.2 rfl, Ordering.swap]
  · simp [compare_lt_iff_lt.2 h, compare_gt_iff_gt.2 h, Ordering.swap]

/-- Swap symmetry of character comparison. -/
theorem charCompareSwap (a b : Char) : compare a b = (compare b a).swap := by
  rcases lt_trichotomy a b with h | h | h
  · simp [compare_lt_iff_lt.2 h, compare_gt_iff_gt.2 h, Ordering.swap]
  · simp [h, compare_eq_iff_eq.2 rfl, Ordering.swap]
  · simp [compare_lt_iff_lt.2 h, compare_gt_iff_gt.2 h, Ordering.swap]

/-- Reflexivity of integer comparison. -/
theorem intCompareRefl (a : Int) : compare a a = Ordering.eq :=
  compare_eq_iff_eq.2 rfl

/-- Reflexivity of character comparison. -/
theorem charCompareRefl (a : Char) : compare a a = Ordering.eq :=
  compare_eq_iff_eq.2 rfl

/-- Swap symmetry of the lexicographic comparison of char lists. -/
theorem lexCmp_swap : ∀ a b : List Char, lexCmp a b = (lexCmp b a).swap := by
  intro a
  induction a with
  | nil => intro b; cases b <;> simp [lexCmp, Ordering.swap]
  | cons x xs ih =>
    intro b
    cases b with
    | nil => simp [lexCmp, Ordering.swap]
    | cons y ys =>
      simp only [lexCmp]
      rw [charCompareSwap x y]
      cases compare y x <;> simp [Ordering.swap, ih ys]

/-- Reflexivity of the lexicographic comparison of char lists. -/
theorem lexCmp_refl : ∀ a : List Char, lexCmp a a = Ordering.eq := by
  intro a
  induction a with
  | nil => rfl
  | cons x xs ih => simp [lexCmp, charCompareRefl, ih]

/-- Totality of the PEP440 comparison: it always returns a result. -/
theorem pep440_total (l r : List Char) : ∃ o, compare_pep440_str l r = some o := by
  unfold compare_pep440_str
  cases ciHas l ['p','o','s','t'] <;> cases ciHas r ['p','o','s','t'] <;>
    cases hel : l.isEmpty <;> cases her : r.isEmpty <;>
    cases ciHas l ['d','e','v'] <;> cases ciHas r ['d','e','v'] <;>
    simp [hel, her]

/-- Swap symmetry of the PEP440 comparison. -/
theorem pep440_swap (l r : List Char) :
    compare_pep440_str r l = (compare_pep440_str l r).map Ordering.swap := by
  unfold compare_pep440_str
  cases ciHas l ['p','o','s','t'] <;> cases ciHas r ['p','o','s','t'] <;>
    cases hel : l.isEmpty <;> cases her : r.isEmpty <;>
    cases ciHas l ['d','e','v'] <;> cases ciHas r ['d','e','v'] <;>
    simp [hel, her, Ordering.swap, lexCmp_swap (lowerL r) (lowerL l)]

/-- Reflexivity of the PEP440 comparison. -/
theorem pep440_refl (l : List Char) : compare_pep440_str l l = some Ordering.eq := by
  unfold compare_pep440_str
  cases ciHas l ['p','o','s','t'] <;> cases hel : l.isEmpty <;>
    cases ciHas l ['d','e','v'] <;> simp [hel, lexCmp_refl]

/-- Helper packaging a swap pair of comparison outcomes. -/
theorem someSwapPair (o o2 : Ordering) (h : o2 = o.swap) :
    ∃ r, (some o : Option Ordering) = some r ∧ (some o2 : Option Ordering) = some r.swap :=
  ⟨o, rfl, by rw [h]⟩

/-- Part comparison is total and swap-symmetric. -/
theorem cmpOpt_total_swap (a b : VersionPart) :
    ∃ o, a.cmpOpt b = some o ∧ b.cmpOpt a = some o.swap := by
  cases a <;> cases b <;>
    simp only [VersionPart.cmpOpt, VersionPart.rankOf] <;>
    first
    | (refine someSwapPair _ _ ?_; first | decide | rw [intCompareSwap] | rw [lexCmp_swap])
    | (rename_i x y
       obtain ⟨o, ho⟩ := pep440_total x y
       exact ⟨o, ho, by rw [pep440_swap x y, ho]; rfl⟩)

/-- Part comparison is reflexive. -/
theorem cmpOpt_refl (a : VersionPart) : a.cmpOpt a = some Ordering.eq := by
  cases a <;>
    simp [VersionPart.cmpOpt, VersionPart.rankOf, intCompareRefl, lexCmp_refl,
          pep440_refl, Ordering.swap, compare_eq_iff_eq.2 rfl]

/-- The exhausted-sequence arm of `compare_iter` as a `map`. -/
theorem armMap (x : Option Ordering) :
    (match x with
     | some .lt => some CompOp.lt
     | some .gt => some CompOp.gt
     | some .eq => some CompOp.eq
     | none => none) = x.map ordToComp := by
  rcases x with _ | o
  · rfl
  · cases o <;> rfl

/-- Version comparison is total and mirror-symmetric: it always yields one
of the three proper outcomes, and swapping the arguments swaps the
outcome. -/
theorem compare_iter_total_swap (a : List VersionPart) :
    ∀ b, ∃ o : Ordering,
      compare_iter a b = some (ordToComp o) ∧
      compare_iter b a = some (ordToComp o.swap) := by
  induction a with
  | nil =>
    intro b
    cases b with
    | nil => exact ⟨.eq, rfl, rfl⟩
    | cons j js =>
      obtain ⟨o, h1, h2⟩ := cmpOpt_total_swap (VersionPart.get_empty j) j
      refine ⟨o, ?_, ?_⟩
      · show (match (VersionPart.get_empty j).cmpOpt j with
          | some .lt => some CompOp.lt
          | some .gt => some CompOp.gt
          | some .eq => some CompOp.eq
          | none => none) = some (ordToComp o)
        rw [h1]; cases o <;> rfl
      · show (match j.cmpOpt j.get_empty with
          | some .lt => some CompOp.lt
          | some .gt => some CompOp.gt
          | some .eq => some CompOp.eq
          | none => none) = some (ordToComp o.swap)
        rw [h2]; cases o <;> rfl
  | cons i is ih =>
    intro b
    cases b with
    | nil =>
      obtain ⟨o, h1, h2⟩ := cmpOpt_total_swap i i.get_empty
      refine ⟨o, ?_, ?_⟩
      · show (match i.cmpOpt i.get_empty with
          | some .lt => some CompOp.lt
          | some .gt => some CompOp.gt
          | some .eq => some CompOp.eq
          | none => none) = some (ordToComp o)
        rw [h1]; cases o <;> rfl
      · show (match (VersionPart.get_empty i).cmpOpt i with
          | some .lt => some CompOp.lt
          | some .gt => some CompOp.gt
          | some .eq => some CompOp.eq
          | none => none) = some (ordToComp o.swap)
        rw [h2]; cases o <;> rfl
    | cons j js =>
      obtain ⟨o, h1, h2⟩ := cmpOpt_total_swap i j
      cases o with
      | eq =>
        obtain ⟨o2, g1, g2⟩ := ih js
        exact ⟨o2, by simp [compare_iter, h1, g1, Ordering.swap, ordToComp],
               by simp [compare_iter, h2, g2, Ordering.swap, ordToComp]⟩
      | lt =>
        exact ⟨.lt, by simp [compare_iter, h1, Ordering.swap, ordToComp],
               by simp [compare_iter, h2, Ordering.swap, ordToComp]⟩
      | gt =>
        exact ⟨.gt, by simp [compare_iter, h1, Ordering.swap, ordToComp],
               by simp [compare_iter, h2, Ordering.swap, ordToComp]⟩

/-! ## Claim theorems: version comparison -/

/-- C4: `Version.compare` is total and antisymmetric: for every pair of part
lists it returns exactly one of `Lt`, `Eq`, `Gt`, the result is `Lt` exactly
when the mirrored comparison is `Gt` (and conversely), and it is `Eq`
exactly when the mirrored comparison is `Eq`. -/
theorem claim_C4_compare_total_antisymmetric :
    ∀ a b : List VersionPart,
      (∃ r, compare_iter a b = some r ∧
        (r = CompOp.lt ∨ r = CompOp.eq ∨ r = CompOp.gt)) ∧
      (compare_iter a b = some CompOp.lt ↔ compare_iter b a = some CompOp.gt) ∧
      (compare_iter a b = some CompOp.eq ↔ compare_iter b a = some CompOp.eq) ∧
      (compare_iter a b = some CompOp.gt ↔ compare_iter b a = some CompOp.lt) := by
  intro a b
  obtain ⟨o, h1, h2⟩ := compare_iter_total_swap a b
  rcases o <;> simp_all [ordToComp, Ordering.swap]

/-- C5: `compare_to` returns a definite boolean, and returns true exactly
for the operator sets named by the claim: `Eq` results satisfy
`{Eq, Le, Ge}`, `Lt` results satisfy `{Ne, Lt, Le}`, and `Gt` results
satisfy `{Ne, Gt, Ge}`. -/
theorem claim_C5_compare_to_table :
    ∀ (a b : List VersionPart) (op : CompOp),
      compare_to a b op ≠ none ∧
      (compare_to a b op = some true ↔
        ((compare_iter a b = some CompOp.eq ∧
            (op = CompOp.eq ∨ op = CompOp.le ∨ op = CompOp.ge)) ∨
         (compare_iter a b = some CompOp.lt ∧
            (op = CompOp.ne ∨ op = CompOp.lt ∨ op = CompOp.le)) ∨
         (compare_iter a b = some CompOp.gt ∧
            (op = CompOp.ne ∨ op = CompOp.gt ∨ op = CompOp.ge)))) := by
  intro a b op
  obtain ⟨o, h1, _⟩ := compare_iter_total_swap a b
  rcases o <;> simp only [ordToComp] at h1 <;> unfold compare_to <;> rw [h1] <;>
    rcases op <;> simp

/-- C6 (counterexample): the code does not compare each remaining part of
the longer version; it returns after checking only the first one.  With
parts `[1]` versus `[1, 0, 1]` the code answers `Eq` whereas the
claim-described padded comparison answers `Lt`. -/
theorem claim_C6_counterexample :
    compare_iter [VersionPart.integer 1]
        [VersionPart.integer 1, VersionPart.integer 0, VersionPart.integer 1] =
      some CompOp.eq ∧
    compare_iter_padded [VersionPart.integer 1]
        [VersionPart.integer 1, VersionPart.integer 0, VersionPart.integer 1] =
      some CompOp.lt ∧
    compare_iter [VersionPart.integer 1]
        [VersionPart.integer 1, VersionPart.integer 0, VersionPart.integer 1] ≠
      compare_iter_padded [VersionPart.integer 1]
        [VersionPart.integer 1, VersionPart.integer 0, VersionPart.integer 1] := by
  refine ⟨?_, ?_, ?_⟩ <;> decide

/-- C6 (amended): when one part sequence is exhausted, only the first
remaining part of the longer version is compared against the empty value of
its own variant and that three-way result is returned immediately; in
particular `Version("1.0")` and `Version("1.0.0")` are equal in both
directions. -/
theorem claim_C6_amended_first_padded_part :
    (∀ (xs : List VersionPart) (p : VersionPart) (rest : List VersionPart),
       compare_iter xs (xs ++ p :: rest) =
         ((VersionPart.get_empty p).cmpOpt p).map ordToComp ∧
       compare_iter (xs ++ p :: rest) xs =
         (p.cmpOpt p.get_empty).map ordToComp) ∧
    Version.veq (versionFrom "1.0") (versionFrom "1.0.0") = some true ∧
    Version.veq (versionFrom "1.0.0") (versionFrom "1.0") = some true := by
  refine ⟨?_, by decide, by decide⟩
  intro xs p rest
  induction xs with
  | nil =>
    constructor
    · show (match (VersionPart.get_empty p).cmpOpt p with
        | some .lt => some CompOp.lt
        | some .gt => some CompOp.gt
        | some .eq => some CompOp.eq
        | none => none) = ((VersionPart.get_empty p).cmpOpt p).map ordToComp
      exact armMap _
    · show (match p.cmpOpt p.get_empty with
        | some .lt => some CompOp.lt
        | some .gt => some CompOp.gt
        | some .eq => some CompOp.eq
        | none => none) = (p.cmpOpt p.get_empty).map ordToComp
      exact armMap _
  | cons x xs ih =>
    constructor
    · show (match x.cmpOpt x with
        | some .gt => some CompOp.gt
        | some .lt => some CompOp.lt
        | some .eq => compare_iter xs (xs ++ p :: rest)
        | none => none) = ((VersionPart.get_empty p).cmpOpt p).map ordToComp
      rw [cmpOpt_refl x]
      exact ih.1
    · show (match x.cmpOpt x with
        | some .gt => some CompOp.gt
        | some .lt => some CompOp.lt
        | some .eq => compare_iter (xs ++ p :: rest) xs
        | none => none) = (p.cmpOpt p.get_empty).map ordToComp
      rw [cmpOpt_refl x]
      exact ih.2

/-- C7: the PEP440 release-stage comparison implements exactly the
case-insensitive rule stated by the claim (post wins, then empty wins, then
dev loses, then case-insensitive text order), and always yields a result. -/
theorem claim_C7_pep440_rule :
    ∀ l r : List Char, compare_pep440_str l r = some (pep440_claim_rule l r) := by
  intro l r
  unfold compare_pep440_str pep440_claim_rule
  cases ciHas l ['p','o','s','t'] <;> cases ciHas r ['p','o','s','t'] <;>
    cases hel : l.isEmpty <;> cases her : r.isEmpty <;>
    cases ciHas l ['d','e','v'] <;> cases ciHas r ['d','e','v'] <;>
    simp [hel, her]

/-- C8: parts of different variants are ordered solely by the fixed variant
rank (the reversed comparison of their declaration positions), regardless of
the contained values; in particular `Epoch(0)` exceeds `Integer(n)` for
every `n`. -/
theorem claim_C8_cross_variant_rank :
    (∀ a b : VersionPart, a.rankOf ≠ b.rankOf →
       a.cmpOpt b = some ((compare a.rankOf b.rankOf).swap)) ∧
    (∀ n : Int, (VersionPart.epoch 0).cmpOpt (VersionPart.integer n) =
       some Ordering.gt) := by
  constructor
  · intro a b h
    cases a <;> cases b <;> first | (exfalso; exact h rfl) | rfl
  · intro n
    rfl

/-- Witness for C8 at concrete parts: `Epoch(0)` against `LexString("z")`
has different ranks and compares by rank alone. -/
theorem claim_C8_witness :
    (VersionPart.epoch 0).rankOf ≠ (VersionPart.lexStr ['z']).rankOf ∧
    (VersionPart.epoch 0).cmpOpt (VersionPart.lexStr ['z']) =
      some ((compare (VersionPart.epoch 0).rankOf
        (VersionPart.lexStr ['z']).rankOf).swap) :=
  ⟨by decide, claim_C8_cross_variant_rank.1 (VersionPart.epoch 0)
    (VersionPart.lexStr ['z']) (by decide)⟩

/-! ## Claim theorems: tree evaluation, VersionSpec, operator tokens -/

/-- C2 (counterexample): evaluating a `None`-combinator tree does not return
false; it hits the `panic!()` arm (modelled as no result), even on a
well-formed single-leaf tree and a plain candidate. -/
theorem claim_C2_counterexample :
    evaluate 5 (CTree.mk Combinator.none [SOCT.str "1.7.1"]) "1.7.1" = none ∧
    evaluate 5 (CTree.mk Combinator.none [SOCT.str "1.7.1"]) "1.7.1" ≠ some false := by
  exact ⟨rfl, by decide⟩

/-- C2 (amended): a `None`-combinator tree never matches any candidate, but
by panicking (producing no boolean at all) rather than by returning false:
for every fuel, tree and candidate, evaluation of a `None`-combinator tree
yields no result. -/
theorem claim_C2_amended_none_panics :
    ∀ (fuel : Nat) (t : CTree) (other : String),
      t.combinator = Combinator.none → evaluate fuel t other = none := by
  intro fuel t other h
  unfold evaluate
  rw [h]
  cases fuel <;> rfl

/-- Witness for the amended C2 at a concrete tree and candidate. -/
theorem claim_C2_amended_witness :
    (CTree.mk Combinator.none [SOCT.str "1.5", SOCT.str "1.6"]).combinator =
      Combinator.none ∧
    evaluate 7 (CTree.mk Combinator.none [SOCT.str "1.5", SOCT.str "1.6"]) "1.5" = none :=
  ⟨rfl, claim_C2_amended_none_panics 7
    (CTree.mk Combinator.none [SOCT.str "1.5", SOCT.str "1.6"]) "1.5" rfl⟩

/-- C3 (code bug): `VersionSpec::try_from` reports `is_exact = false` for
the plain token `"1.7.1"` and for the relational `"==1.7.1"`, because the
`split_input.len() > 0` guard is always true (a regex split always yields at
least one piece), so every input takes the treeify branch whose
`From<ConstraintTree>` conversion hard-codes `is_exact = false`.  The
repository's own test `test_version_spec_1` asserts `is_exact()` is true for
`"1.7.1"`. -/
theorem claim_C3_code_bug_is_exact :
    (rsplit "1.7.1").length > 0 ∧
    (VersionSpec.try_from "1.7.1").map (Option.map VersionSpec.is_exact) =
      .ok (some false) ∧
    (VersionSpec.try_from "==1.7.1").map (Option.map VersionSpec.is_exact) =
      .ok (some false) ∧
    (VersionSpec.try_from "1.7.1*").map (Option.map VersionSpec.is_exact) =
      .ok (some false) := by
  refine ⟨by decide, rfl, rfl, rfl⟩

/-- Operators captured by the relational regex come from its alternation
list. -/
theorem capture_mem {input o v : String}
    (h : captureRelational input = some (o, v)) : o ∈ opsList := by
  unfold captureRelational at h
  cases hf : opsList.find? (fun o2 => opMatches o2 input.data) with
  | none => rw [hf] at h; exact absurd h (by simp)
  | some o2 =>
    rw [hf] at h
    obtain ⟨rfl, _⟩ := Prod.mk.injEq .. ▸ Option.some.injEq .. ▸ h
    exact List.mem_of_find?_eq_some hf

/-- C9: when a relational specifier token has a version portion ending in
`.*`, the parser rewrites `!=` to the dedicated not-starts-with operator and
drops the suffix, rejects `~=` with the dedicated error message, and for any
other captured operator drops the suffix and keeps the operator (with
`is_exact` exactly for `==`). -/
theorem claim_C9_dotstar_rules :
    ∀ (input o v : String),
      captureRelational input = some (o, v) →
      endsDotStar v = true →
      (o = "!=" →
        create_match_enum_from_operator_str input =
          .ok (some (MatchEnum.matchOperator CompOp.notStartsWith
            (versionFrom (dropDotStar v)), false))) ∧
      (o = "~=" →
        create_match_enum_from_operator_str input =
          .error ("invalid operator (~=) with \x27.*\x27 in spec string: " ++ input)) ∧
      (o ≠ "!=" → o ≠ "~=" →
        ∃ c, CompOp.from_sign o = .ok c ∧
          create_match_enum_from_operator_str input =
            .ok (some (MatchEnum.matchOperator c
              (versionFrom (dropDotStar v)), o == "=="))) := by
  intro input o v hcap hstar
  have hmem := capture_mem hcap
  refine ⟨?_, ?_, ?_⟩
  · rintro rfl
    unfold create_match_enum_from_operator_str
    rw [hcap]
    simp only [hstar]
    rfl
  · rintro rfl
    unfold create_match_enum_from_operator_str
    rw [hcap]
    simp only [hstar]
    rfl
  · intro h1 h2
    unfold create_match_enum_from_operator_str
    rw [hcap]
    simp only [opsList, List.mem_cons, List.not_mem_nil, or_false] at hmem
    rcases hmem with rfl | rfl | rfl | rfl | rfl | rfl | rfl | rfl <;>
      first
      | exact absurd rfl h1
      | exact absurd rfl h2
      | (refine ⟨_, rfl, ?_⟩
         simp only [hstar]
         rfl)

/-- Witness for C9 at the concrete specifiers `!=3.3.*`. -/
theorem claim_C9_witness :
    captureRelational "!=3.3.*" = some ("!=", "3.3.*") ∧
    endsDotStar "3.3.*" = true ∧
    create_match_enum_from_operator_str "!=3.3.*" =
      .ok (some (MatchEnum.matchOperator CompOp.notStartsWith
        (versionFrom "3.3"), false)) :=
  ⟨rfl, rfl,
    (claim_C9_dotstar_rules "!=3.3.*" "!=" "3.3.*" rfl rfl).1 rfl⟩

/-- Helper relating the source zip-equality to `List.zip`. -/
theorem zipEqParts_eq_zip_all :
    ∀ ps qs : List SOCT,
      zipEqParts ps qs = ((ps.zip qs).all (fun ab => soctEq ab.1 ab.2)) := by
  intro ps
  induction ps with
  | nil => intro qs; cases qs <;> rfl
  | cons p ps ih =>
    intro qs
    cases qs with
    | nil => rfl
    | cons q qs => simp [zipEqParts, List.zip, ih qs]

/-- C10: `ConstraintTree` equality compares only the pairwise-zipped
children: whenever the zipped pairs are all equal, the trees compare equal,
regardless of the combinators and of any surplus children; in particular
every tree compares equal to a tree with zero children (in both argument
orders). -/
theorem claim_C10_loose_equality :
    (∀ (c c2 : Combinator) (ps qs : List SOCT),
       ((ps.zip qs).all (fun ab => soctEq ab.1 ab.2)) = true →
       ctEq (CTree.mk c ps) (CTree.mk c2 qs) = true) ∧
    (∀ (c c2 : Combinator) (ps : List SOCT),
       ctEq (CTree.mk c ps) (CTree.mk c2 []) = true ∧
       ctEq (CTree.mk c2 []) (CTree.mk c ps) = true) := by
  constructor
  · intro c c2 ps qs h
    unfold ctEq
    rw [zipEqParts_eq_zip_all]
    exact h
  · intro c c2 ps
    constructor <;> (unfold ctEq; cases ps <;> rfl)

/-- Witness for C10: an `And` tree with three children equals an `Or` tree
holding only its first two children. -/
theorem claim_C10_witness :
    ((([SOCT.str "1.5", SOCT.str "1.6", SOCT.str "1.7"].zip
        [SOCT.str "1.5", SOCT.str "1.6"]).all
          (fun ab => soctEq ab.1 ab.2)) = true) ∧
    ctEq (CTree.mk Combinator.and [SOCT.str "1.5", SOCT.str "1.6", SOCT.str "1.7"])
         (CTree.mk Combinator.or [SOCT.str "1.5", SOCT.str "1.6"]) = true :=
  ⟨by decide,
    claim_C10_loose_equality.1 Combinator.and Combinator.or
      [SOCT.str "1.5", SOCT.str "1.6", SOCT.str "1.7"]
      [SOCT.str "1.5", SOCT.str "1.6"] (by decide)⟩

/-! ## Round-trip development: untreeify renders canonically -/

/-- Induction principle for `SOCT` giving the hypothesis on every member of
a child list. -/
theorem SOCT.my_ind (motive : SOCT → Prop)
    (hstr : ∀ s, motive (.str s))
    (hct : ∀ c ps, (∀ p ∈ ps, motive p) → motive (.ctree c ps)) :
    ∀ t, motive t := by
  intro t
  induction t using SOCT.rec (motive_2 := fun ps => ∀ p ∈ ps, motive p) with
  | str s => exact hstr s
  | ctree c ps ih => exact hct c ps ih
  | nil =>
    rename_i p hp
    exact absurd hp (List.not_mem_nil p)
  | cons h t2 ih1 ih2 =>
    rename_i p hp
    rcases List.mem_cons.1 hp with rfl | hmem
    · exact ih1
    · exact ih2 p hmem

/-- Canonical part lists give canonical membership. -/
theorem canonParts_mem :
    ∀ {c : Combinator} {ps : List SOCT}, canonParts c ps = true →
      ∀ q ∈ ps, canonPart c q = true := by
  intro c ps
  induction ps with
  | nil => intro _ q hq; exact absurd hq (List.not_mem_nil q)
  | cons p rest ih =>
    intro h q hq
    rw [canonParts] at h
    rcases List.mem_cons.1 hq with rfl | hmem
    · exact (Bool.and_eq_true_iff.1 h).1
    · exact ih (Bool.and_eq_true_iff.1 h).2 q hmem

/-- Joining rendered parts with the separator equals the canonical
rendering. -/
theorem joinSep_render :
    ∀ (c : Combinator) (ps : List SOCT), ps ≠ [] →
      joinSep (sepStr c) (ps.map renderPart) = renderParts c ps := by
  intro c ps
  induction ps with
  | nil => intro h; exact absurd rfl h
  | cons p rest ih =>
    intro _
    cases rest with
    | nil => rfl
    | cons q rest2 =>
      show renderPart p ++ sepStr c ++ joinSep (sepStr c) ((q :: rest2).map renderPart) =
        renderPart p ++ sepStr c ++ renderParts c (q :: rest2)
      rw [ih (by simp)]

/-- Each canonical part renders through `combineStrs` exactly as
`renderPart` says, for any surrounding combinator. -/
theorem combineStrs_render :
    ∀ p : SOCT, (∃ parent, canonPart parent p = true) →
      ∀ comb2, combineStrs comb2 p = .ok (renderPart p) := by
  intro p0
  induction p0 using SOCT.my_ind with
  | hstr s => intro _ _; rfl
  | hct c ps ih =>
    intro hcanon comb2
    obtain ⟨parent, hc⟩ := hcanon
    rw [canonPart] at hc
    have h2 : lengthAtLeast2 ps = true := by
      rcases Bool.and_eq_true_iff.1 hc with ⟨h3, _⟩
      exact (Bool.and_eq_true_iff.1 h3).2
    have hparts : canonParts c ps = true :=
      (Bool.and_eq_true_iff.1 hc).2
    have heach : ∀ qs : List SOCT, (∀ q ∈ qs, q ∈ ps) →
        combineEach c qs = .ok (qs.map renderPart) := by
      intro qs
      induction qs with
      | nil => intro _; rfl
      | cons q rest ih2 =>
        intro hsub
        have hq : q ∈ ps := hsub q (List.mem_cons_self q rest)
        have hqc : canonPart c q = true := canonParts_mem hparts q hq
        show combineEach c (q :: rest) = .ok ((q :: rest).map renderPart)
        rw [combineEach]
        rw [ih q hq ⟨c, hqc⟩ c, ih2 (fun x hx => hsub x (List.mem_cons_of_mem q hx))]
        rfl
    match ps, h2, hparts with
    | p1 :: p2 :: rest, _, hparts =>
      have hp1 : canonPart c p1 = true := canonParts_mem hparts p1 (by simp)
      show combineT c (p1 :: p2 :: rest) (comb2 == Combinator.and) true = _
      rw [combineT]
      rw [ih p1 (by simp) ⟨c, hp1⟩ c,
          heach (p2 :: rest) (fun x hx => List.mem_cons_of_mem p1 hx)]
      have hjoin := joinSep_render c (p1 :: p2 :: rest) (by simp)
      simp only [List.map] at hjoin ⊢
      rw [hjoin]
      simp [renderPart]

/-- C1 groundwork: on canonical trees `untreeify` succeeds and produces the
canonical rendering. -/
theorem untreeify_render :
    ∀ t : CTree, canonTop t = true → untreeify t = .ok (renderTop t) := by
  intro t hc
  unfold canonTop at hc
  unfold untreeify renderTop
  rcases t with ⟨comb, parts⟩
  simp only at hc
  match parts, hc with
  | [SOCT.str s], hc => rfl
  | [], hc => simp [lengthAtLeast2] at hc
  | [SOCT.ctree c2 qs], hc => simp [lengthAtLeast2] at hc
  | p1 :: p2 :: rest, hc =>
    have hc2 : ((comb == Combinator.and || comb == Combinator.or) &&
        lengthAtLeast2 (p1 :: p2 :: rest) &&
        canonParts comb (p1 :: p2 :: rest)) = true := by
      cases p1 <;> exact hc
    have hparts : canonParts comb (p1 :: p2 :: rest) = true :=
      (Bool.and_eq_true_iff.1 hc2).2
    have hp1 : canonPart comb p1 = true := canonParts_mem hparts p1 (by simp)
    show combineT comb (p1 :: p2 :: rest) false false = _
    rw [combineT]
    have heach : ∀ qs : List SOCT, (∀ q ∈ qs, q ∈ p1 :: p2 :: rest) →
        combineEach comb qs = .ok (qs.map renderPart) := by
      intro qs
      induction qs with
      | nil => intro _; rfl
      | cons q rest2 ih2 =>
        intro hsub
        have hq : q ∈ p1 :: p2 :: rest := hsub q (List.mem_cons_self q rest2)
        have hqc : canonPart comb q = true := canonParts_mem hparts q hq
        show combineEach comb (q :: rest2) = .ok ((q :: rest2).map renderPart)
        rw [combineEach]
        rw [combineStrs_render q ⟨comb, hqc⟩ comb,
            ih2 (fun x hx => hsub x (List.mem_cons_of_mem q hx))]
        rfl
    rw [combineStrs_render p1 ⟨comb, hp1⟩ comb,
        heach (p2 :: rest) (fun x hx => List.mem_cons_of_mem p1 hx)]
    have hjoin := joinSep_render comb (p1 :: p2 :: rest) (by simp)
    simp only [List.map] at hjoin ⊢
    rw [hjoin]
    simp

/-! ## Round-trip development: tokenizing a canonical rendering -/

/-- Take-while over an append whose first block satisfies the predicate. -/
theorem takeWhile_app (p : Char → Bool) :
    ∀ (l1 l2 : List Char), l1.all p = true →
      (l1 ++ l2).takeWhile p = l1 ++ l2.takeWhile p := by
  intro l1 l2
  induction l1 with
  | nil => intro _; rfl
  | cons c rest ih =>
    intro h
    rcases Bool.and_eq_true_iff.1 h with ⟨h1, h2⟩
    simp [List.takeWhile_cons, h1, ih h2]

/-- Drop-while over an append whose first block satisfies the predicate. -/
theorem dropWhile_app (p : Char → Bool) :
    ∀ (l1 l2 : List Char), l1.all p = true →
      (l1 ++ l2).dropWhile p = l2.dropWhile p := by
  intro l1 l2
  induction l1 with
  | nil => intro _; rfl
  | cons c rest ih =>
    intro h
    rcases Bool.and_eq_true_iff.1 h with ⟨h1, h2⟩
    simp [List.dropWhile_cons, h1, ih h2]

/-- A list whose head fails the predicate is untouched by take-while. -/
theorem takeWhile_head_false (p : Char → Bool) (l : List Char)
    (h : match l with | [] => True | d :: _ => p d = false) :
    l.takeWhile p = [] := by
  cases l with
  | nil => rfl
  | cons d rest => simp_all [List.takeWhile_cons]

/-- A list whose head fails the predicate is untouched by drop-while. -/
theorem dropWhile_head_false (p : Char → Bool) (l : List Char)
    (h : match l with | [] => True | d :: _ => p d = false) :
    l.dropWhile p = l := by
  cases l with
  | nil => rfl
  | cons d rest => simp_all [List.dropWhile_cons]

/-- Trimming does nothing to a list with non-whitespace first and last
characters. -/
theorem trimL_eq_self (cs : List Char)
    (h1 : match cs with | [] => True | c :: _ => isWsC c = false)
    (h2 : match cs.getLast? with | some d => isWsC d = false | Option.none => True) :
    trimL cs = cs := by
  unfold trimL
  rw [dropWhile_head_false isWsC cs h1]
  rw [dropWhile_head_false isWsC cs.reverse ?hrev]
  · exact cs.reverse_reverse
  · cases hrv : cs.reverse with
    | nil => exact True.intro
    | cons d rest =>
      have : cs.getLast? = some d := by
        rw [List.getLast?_eq_head?_reverse, hrv]
        rfl
      rw [this] at h2
      exact h2

/-- A plain canonical leaf has a non-caret, non-whitespace, non-structural
head. -/
theorem plainLeaf_head {t : List Char} (h : plainLeafOk t = true) :
    ∃ c rest, t = c :: rest ∧ (c == '^') = false ∧ isWsC c = false ∧
      isDelim c = false ∧ t.all (fun x => !isDelim x) = true ∧
      (match t.getLast? with | some d => isWsC d = false | Option.none => True) := by
  cases t with
  | nil => exact absurd h (by simp [plainLeafOk])
  | cons c rest =>
    rw [plainLeafOk] at h
    rcases Bool.and_eq_true_iff.1 h with ⟨h3, hall⟩
    rcases Bool.and_eq_true_iff.1 h3 with ⟨h4, hlast⟩
    rcases Bool.and_eq_true_iff.1 h4 with ⟨hcaret, hws⟩
    refine ⟨c, rest, rfl, by simpa using hcaret, by simpa using hws, ?_, hall, ?_⟩
    · have := List.all_eq_true.1 hall c (by simp)
      simpa using this
    · cases hg : (c :: rest).getLast? with
      | none => exact True.intro
      | some d =>
        rw [hg] at hlast
        simpa using hlast


/-- Enumeration of the structural characters. -/
theorem delim_cases {d : Char} (h : isDelim d = true) :
    d = '(' ∨ d = ')' ∨ d = '|' ∨ d = ',' := by
  simpa [isDelim, or_assoc] using h

/-- Structure of a canonical regex leaf. -/
theorem regexLeaf_shape {t : List Char} (h : regexLeafOk t = true) :
    ∃ body : List Char, t = '^' :: body ++ ['$'] ∧ body.contains '$' = false := by
  cases t with
  | nil => exact absurd h (by simp [regexLeafOk])
  | cons c rest =>
    rw [regexLeafOk] at h
    rcases Bool.and_eq_true_iff.1 h with ⟨hcar, h2⟩
    have hc : c = '^' := by simpa using hcar
    subst hc
    cases hg : rest.getLast? with
    | none => rw [hg] at h2; simp at h2
    | some d =>
      rw [hg] at h2
      rcases Bool.and_eq_true_iff.1 h2 with ⟨hd, hcon⟩
      have hd2 : d = '$' := by simpa using hd
      subst hd2
      refine ⟨rest.dropLast, ?_, by simpa using hcon⟩
      exact congrArg (fun l => '^' :: l) (List.dropLast_append_getLast? '$' hg).symm

/-- The tokenizer takes one structural character as one token. -/
theorem tokenizeL_delim (d : Char) (hdl : isDelim d = true)
    (x : List Char) (f : Nat) :
    tokenizeL (f + 1) (d :: x) = [d] :: tokenizeL f x := by
  have hws : isWsC d = false := by
    rcases delim_cases hdl with rfl | rfl | rfl | rfl <;> decide
  have hcar : ¬(d = '^' ∧ '$' ∈ x) := by
    rintro ⟨rfl, -⟩
    rcases delim_cases hdl with h | h | h | h <;> simp at h
  conv_lhs => unfold tokenizeL
  simp only [List.dropWhile_cons, hws, if_false, Bool.false_eq_true]
  rw [if_neg hcar, if_pos hdl]

/-- The tokenizer takes one plain canonical leaf followed by structural (or
no) input as one token. -/
theorem tokenizeL_plain (t x : List Char) (f : Nat) (hp : plainLeafOk t = true)
    (hx : match x with | [] => True | d :: _ => isDelim d = true) :
    tokenizeL (f + 1) (t ++ x) = t :: tokenizeL f x := by
  obtain ⟨c, restT, rfl, hcaret, hws, hdel, hall, hlast⟩ := plainLeaf_head hp
  have htake : (c :: (restT ++ x)).takeWhile (fun ch => !isDelim ch) = c :: restT := by
    show ((c :: restT) ++ x).takeWhile (fun ch => !isDelim ch) = c :: restT
    rw [takeWhile_app _ _ x hall, takeWhile_head_false]
    · simp
    · cases x with
      | nil => exact True.intro
      | cons d xs => simpa using hx
  have hdrop : (c :: (restT ++ x)).dropWhile (fun ch => !isDelim ch) = x := by
    show ((c :: restT) ++ x).dropWhile (fun ch => !isDelim ch) = x
    rw [dropWhile_app _ _ x hall, dropWhile_head_false]
    cases x with
    | nil => exact True.intro
    | cons d xs => simpa using hx
  have htrim : trimL (c :: restT) = c :: restT :=
    trimL_eq_self _ (by simpa using hws) hlast
  have hcar : ¬(c = '^' ∧ '$' ∈ restT ++ x) := by
    rintro ⟨rfl, -⟩
    simp at hcaret
  conv_lhs => unfold tokenizeL
  simp only [List.cons_append, List.dropWhile_cons, hws, if_false, Bool.false_eq_true]
  rw [if_neg hcar, if_neg (by rw [hdel]; exact fun h => absurd h (by simp))]
  rw [htake, htrim]
  have hbang : (!isDelim c) = true := by rw [hdel]; rfl
  rw [if_pos hbang]
  have halltail : restT.all (fun ch => !isDelim ch) = true := by
    have h2 := hall
    simp only [List.all_cons, Bool.and_eq_true] at h2
    exact h2.2
  rw [dropWhile_app _ _ x halltail, dropWhile_head_false]
  cases x with
  | nil => exact True.intro
  | cons d xs => simpa using hx

/-- The tokenizer takes one canonical regex leaf as one token, independent
of the following input. -/
theorem tokenizeL_regex (body x : List Char) (f : Nat)
    (hb : body.contains '$' = false) :
    tokenizeL (f + 1) (('^' :: body ++ ['$']) ++ x) =
      ('^' :: body ++ ['$']) :: tokenizeL f x := by
  have hnotin : '$' ∉ body := by simpa using hb
  have hallb : body.all (fun ch => decide (ch ≠ '$')) = true := by
    rw [List.all_eq_true]
    intro ch hch
    simp only [decide_eq_true_eq]
    rintro rfl
    exact hnotin hch
  have htake : (body ++ '$' :: x).takeWhile (fun ch => decide (ch ≠ '$')) = body := by
    rw [takeWhile_app _ _ _ hallb, takeWhile_head_false]
    · simp
    · simp
  have hdrop : (body ++ '$' :: x).dropWhile (fun ch => decide (ch ≠ '$')) = '$' :: x := by
    rw [dropWhile_app _ _ _ hallb, dropWhile_head_false]
    simp
  have hws : isWsC '^' = false := by decide
  conv_lhs => unfold tokenizeL
  simp only [List.cons_append, List.dropWhile_cons, hws, if_false, Bool.false_eq_true,
    List.append_assoc, List.singleton_append, List.nil_append]
  rw [if_pos ⟨trivial, by simp⟩, htake, hdrop]
  rfl

/-- A structural token is a singleton structural character. -/
theorem delimTok_cases {t : List Char} (h : delimTok t = true) :
    ∃ d, t = [d] ∧ isDelim d = true := by
  have h2 : t = ['('] ∨ t = [')'] ∨ t = ['|'] ∨ t = [','] := by
    simpa [delimTok, or_assoc] using h
  rcases h2 with rfl | rfl | rfl | rfl
  · exact ⟨'(', rfl, by decide⟩
  · exact ⟨')', rfl, by decide⟩
  · exact ⟨'|', rfl, by decide⟩
  · exact ⟨',', rfl, by decide⟩

/-- Tokens of a canonical stream are nonempty. -/
theorem goodTok_ne_nil {t : List Char} {rest : List (List Char)}
    (h : goodToks (t :: rest) = true) : t ≠ [] := by
  rintro rfl
  rw [goodToks] at h
  simp [delimTok, plainLeafOk, regexLeafOk] at h

/-- A canonical stream has no more tokens than characters. -/
theorem goodToks_len : ∀ toks : List (List Char), goodToks toks = true →
    toks.length ≤ toks.flatten.length := by
  intro toks
  induction toks with
  | nil => intro _; simp
  | cons t rest ih =>
    intro h
    have ht : t ≠ [] := goodTok_ne_nil h
    have hrest : goodToks rest = true := by
      rw [goodToks] at h
      exact (Bool.and_eq_true_iff.1 h).2
    have h1 : 1 ≤ t.length := by
      cases t with
      | nil => exact absurd rfl ht
      | cons c cs => simp
    have h2 := ih hrest
    simp only [List.length_cons, List.flatten_cons, List.length_append]
    omega

/-- The joined continuation after a structural head starts with a structural
character (or is empty). -/
theorem join_head_delim : ∀ {rest : List (List Char)}, headDelim rest = true →
    (match rest.flatten with | [] => True | d :: _ => isDelim d = true) := by
  intro rest hh
  cases rest with
  | nil => exact True.intro
  | cons t rest2 =>
    rw [headDelim] at hh
    obtain ⟨d, rfl, hd⟩ := delimTok_cases hh
    exact hd

/-- The tokenizer recovers every canonical token stream from its joined
text, given enough fuel. -/
theorem tokenize_good : ∀ (toks : List (List Char)) (f : Nat),
    goodToks toks = true → toks.length ≤ f →
    tokenizeL f toks.flatten = toks := by
  intro toks
  induction toks with
  | nil =>
    intro f _ _
    cases f with
    | zero => rfl
    | succ f2 => rfl
  | cons t rest ih =>
    intro f hg hf
    have hrest : goodToks rest = true := by
      rw [goodToks] at hg
      exact (Bool.and_eq_true_iff.1 hg).2
    cases f with
    | zero => exact absurd hf (by simp)
    | succ f2 =>
      have hf2 : rest.length ≤ f2 := by simpa using hf
      show tokenizeL (f2 + 1) (t ++ rest.flatten) = t :: rest
      by_cases hd : delimTok t = true
      · obtain ⟨d, rfl, hdd⟩ := delimTok_cases hd
        show tokenizeL (f2 + 1) (d :: rest.flatten) = [d] :: rest
        rw [tokenizeL_delim d hdd _ f2, ih f2 hrest hf2]
      · have h1 := (Bool.and_eq_true_iff.1 (by rw [goodToks] at hg; exact hg)).1
        rw [Bool.not_eq_true] at hd
        simp only [hd, Bool.false_eq_true, if_false] at h1
        have hhd : headDelim rest = true := (Bool.and_eq_true_iff.1 h1).2
        rcases Bool.or_eq_true_iff.1 (Bool.and_eq_true_iff.1 h1).1 with hp | hr
        · rw [tokenizeL_plain t rest.flatten f2 hp (join_head_delim hhd),
              ih f2 hrest hf2]
        · obtain ⟨body, rfl, hb⟩ := regexLeaf_shape hr
          rw [tokenizeL_regex body rest.flatten f2 hb, ih f2 hrest hf2]

/-- The separator string is the one-character separator. -/
theorem sepStr_data (c : Combinator) : (sepStr c).data = [sepChar c] := by
  cases c <;> rfl

/-- The token stream of a rendered part joins back to its rendered text. -/
theorem partToks_join : ∀ p : SOCT, (partToks p).flatten = (renderPart p).data := by
  intro p0
  induction p0 using SOCT.my_ind with
  | hstr s => simp [partToks, renderPart]
  | hct c ps ih =>
    have hinner : ∀ qs : List SOCT, (∀ q ∈ qs, q ∈ ps) →
        (innerToks c qs).flatten = (renderParts c qs).data := by
      intro qs
      induction qs with
      | nil => intro _; rfl
      | cons q rest ih2 =>
        intro hsub
        cases rest with
        | nil =>
          show (partToks q).flatten = (renderPart q).data
          exact ih q (hsub q (by simp))
        | cons q2 rest2 =>
          show (partToks q ++ [sepChar c] :: innerToks c (q2 :: rest2)).flatten =
            (renderPart q ++ sepStr c ++ renderParts c (q2 :: rest2)).data
          rw [List.flatten_append]
          have hq := ih q (hsub q (by simp))
          have htl := ih2 (fun x hx => hsub x (List.mem_cons_of_mem q hx))
          simp only [List.flatten_cons, hq, htl, String.data_append, sepStr_data]
          simp [List.append_assoc]
    show (['('] :: (innerToks c ps ++ [[')']])).flatten =
      ("(" ++ renderParts c ps ++ ")").data
    rw [List.flatten_cons, List.flatten_append]
    rw [hinner ps (fun q hq => hq)]
    simp [String.data_append]

/-- The token stream of a rendered part list joins back to its rendered
text. -/
theorem innerToks_join : ∀ (c : Combinator) (ps : List SOCT),
    (innerToks c ps).flatten = (renderParts c ps).data := by
  intro c ps
  induction ps with
  | nil => rfl
  | cons q rest ih2 =>
    cases rest with
    | nil =>
      show (partToks q).flatten = (renderPart q).data
      exact partToks_join q
    | cons q2 rest2 =>
      show (partToks q ++ [sepChar c] :: innerToks c (q2 :: rest2)).flatten =
        (renderPart q ++ sepStr c ++ renderParts c (q2 :: rest2)).data
      rw [List.flatten_append]
      simp only [List.flatten_cons, partToks_join q, ih2, String.data_append, sepStr_data]
      simp [List.append_assoc]

/-- The accumulator after wrapping never carries a combinator. -/
theorem wrapIf_comb (out : CTree) : (wrapIf out).combinator = Combinator.none := by
  rw [wrapIf]
  split
  · rename_i h
    simpa using h
  · rfl

/-- A canonical leaf is not one of the four structural tokens. -/
theorem leafOk_not_special {s : String} (h : leafOk s = true) :
    s.data ≠ ['('] ∧ s.data ≠ ['|'] ∧ s.data ≠ [','] ∧ s.data ≠ [')'] := by
  refine ⟨?_, ?_, ?_, ?_⟩ <;>
    { intro heq
      rw [leafOk, heq] at h
      exact absurd h (by decide) }

/-- `step` on a canonical leaf token takes the default arm and appends the
leaf to the (wrapped) accumulator. -/
theorem step_leaf (s : String) (h : leafOk s = true) (out : CTree) (stk : List Char) :
    step (out, stk) s.data = .ok (pushPart out (SOCT.str s), stk) := by
  obtain ⟨h1, h2, h3, h4⟩ := leafOk_not_special h
  unfold step
  split
  · rename_i heq; exact absurd heq h1
  · rename_i heq; exact absurd heq h2
  · rename_i heq; exact absurd heq h3
  · rename_i heq; exact absurd heq h4
  · rfl

/-- `step` on an opening parenthesis pushes it onto the operator stack. -/
theorem step_paren (out : CTree) (stk : List Char) :
    step (out, stk) ['('] = .ok (out, '(' :: stk) := rfl

/-- `step` on a closing parenthesis folds back to the matching opening
parenthesis and pops it. -/
theorem step_close (out res1 : CTree) (stk res2 : List Char)
    (h : apply_ops ['('] out stk = .ok (res1, '(' :: res2)) :
    step (out, stk) [')'] = .ok (res1, res2) := by
  unfold step
  simp only [h]

/-- `step` on a separator folds with the separator kept out of the stop set
and pushes the separator. -/
theorem step_sepChar (c : Combinator)
    (hc : (c == Combinator.and || c == Combinator.or) = true)
    (out res1 : CTree) (stk res2 : List Char)
    (h : ∀ cstop, '(' ∈ cstop → sepChar c ∉ cstop →
      apply_ops cstop out stk = .ok (res1, res2)) :
    step (out, stk) [sepChar c] = .ok (res1, sepChar c :: res2) := by
  cases c with
  | none => simp at hc
  | and =>
    have h2 := h ['|', '('] (by simp) (by decide)
    show step (out, stk) [','] = .ok (res1, ',' :: res2)
    unfold step
    simp only [h2]
  | or =>
    have h2 := h ['('] (by simp) (by decide)
    show step (out, stk) ['|'] = .ok (res1, '|' :: res2)
    unfold step
    simp only [h2]

/-- `_apply_ops` stops immediately at an opening parenthesis in the stop
set. -/
theorem apply_ops_paren (cstop : List Char) (hin : '(' ∈ cstop)
    (out : CTree) (stk : List Char) :
    apply_ops cstop out ('(' :: stk) = .ok (out, '(' :: stk) := by
  unfold apply_ops
  rw [if_pos hin]

/-- The separator character denotes its own combinator. -/
theorem comb_of_sep (c : Combinator)
    (hc : (c == Combinator.and || c == Combinator.or) = true) :
    comb_of (sepChar c) = c := by
  cases c with
  | none => simp at hc
  | and => rfl
  | or => rfl

/-- Fusing leaves a part alone when it is not a tree of the same
combinator. -/
theorem flatSame_noSame (c : Combinator) (v : SOCT) (h : noSame c v = true) :
    flatSame c v = [v] := by
  cases v with
  | str s => rfl
  | ctree c2 ps =>
    rw [noSame, Bool.not_eq_true'] at h
    simp [flatSame, h]

/-- Canonical parts are never trees of the surrounding combinator. -/
theorem canonPart_noSame {c : Combinator} {p : SOCT}
    (h : canonPart c p = true) : noSame c p = true := by
  cases p with
  | str s => rfl
  | ctree c2 ps =>
    rw [canonPart] at h
    simp only [Bool.and_eq_true] at h
    rw [noSame]
    exact h.1.1.2

/-- Last element with fallback of a nonempty list is an element. -/
theorem getLastD_mem_soct : ∀ (l : List SOCT) (d : SOCT), l ≠ [] →
    l.getLastD d ∈ l := by
  intro l
  induction l with
  | nil => intro d h; exact absurd rfl h
  | cons a as ih =>
    intro d _
    cases as with
    | nil => simp [List.getLastD]
    | cons b bs =>
      have := ih a (by simp)
      show (b :: bs).getLastD a ∈ a :: b :: bs
      exact List.mem_cons_of_mem a this

/-- Splitting off the fallback-last element rebuilds a nonempty list. -/
theorem dropLast_getLastD : ∀ (l : List SOCT) (d : SOCT), l ≠ [] →
    l.dropLast ++ [l.getLastD d] = l := by
  intro l
  induction l with
  | nil => intro d h; exact absurd rfl h
  | cons a as ih =>
    intro d _
    cases as with
    | nil => rfl
    | cons b bs =>
      show (a :: b :: bs).dropLast ++ [(b :: bs).getLastD a] = a :: b :: bs
      rw [List.dropLast_cons₂]
      rw [List.cons_append]
      rw [ih a (by simp)]

/-- Folding a two-or-more-part accumulator at a separator produces the
folded state and stops at the opening parenthesis. -/
theorem apply_ops_fold (c : Combinator)
    (hc : (c == Combinator.and || c == Combinator.or) = true)
    (B : List SOCT) (v1 v2 : SOCT) (rest : List SOCT)
    (hvs : ∀ v ∈ v1 :: v2 :: rest, noSame c v = true)
    (cstop : List Char) (hin : '(' ∈ cstop) (hout : sepChar c ∉ cstop)
    (stk : List Char) :
    apply_ops cstop (midState c B (v1 :: v2 :: rest)) (sepChar c :: '(' :: stk) =
      .ok (foldState c B (v1 :: v2 :: rest), '(' :: stk) := by
  conv_lhs => unfold apply_ops
  rw [if_neg hout]
  cases rest with
  | nil =>
    have hms : midState c B [v1, v2] = CTree.mk .none (B ++ [v1, v2]) := by
      simp [midState]
    rw [hms]
    have hrev : (CTree.mk Combinator.none (B ++ [v1, v2])).parts.reverse =
        v2 :: v1 :: B.reverse := by simp
    rw [hrev]
    simp only [comb_of_sep c hc, flatSame_noSame c v1 (hvs v1 (by simp)),
      flatSame_noSame c v2 (hvs v2 (by simp)), List.reverse_reverse]
    rw [apply_ops_paren cstop hin]
    by_cases hB : B.isEmpty
    · simp [hB, foldState]
    · simp only [Bool.not_eq_true] at hB
      simp [hB, foldState]
  | cons r1 rs =>
    have hms : midState c B (v1 :: v2 :: r1 :: rs) = CTree.mk .none
        (B ++ [SOCT.ctree c ((v1 :: v2 :: r1 :: rs).dropLast),
               (v1 :: v2 :: r1 :: rs).getLastD (SOCT.str "")]) := by
      simp [midState]
    rw [hms]
    have hrev : (CTree.mk Combinator.none
        (B ++ [SOCT.ctree c ((v1 :: v2 :: r1 :: rs).dropLast),
               (v1 :: v2 :: r1 :: rs).getLastD (SOCT.str "")])).parts.reverse =
        (v1 :: v2 :: r1 :: rs).getLastD (SOCT.str "") ::
          SOCT.ctree c ((v1 :: v2 :: r1 :: rs).dropLast) :: B.reverse := by simp
    rw [hrev]
    have hlastmem : (v1 :: v2 :: r1 :: rs).getLastD (SOCT.str "") ∈
        v1 :: v2 :: r1 :: rs := getLastD_mem_soct _ _ (by simp)
    have hflat1 : flatSame c
        (SOCT.ctree c ((v1 :: v2 :: r1 :: rs).dropLast)) =
        (v1 :: v2 :: r1 :: rs).dropLast := by
      simp [flatSame]
    have hflat2 : flatSame c
        ((v1 :: v2 :: r1 :: rs).getLastD (SOCT.str "")) =
        [(v1 :: v2 :: r1 :: rs).getLastD (SOCT.str "")] :=
      flatSame_noSame c _ (hvs _ hlastmem)
    simp only [comb_of_sep c hc, hflat1, hflat2, List.reverse_reverse]
    rw [dropLast_getLastD _ _ (by simp)]
    rw [apply_ops_paren cstop hin]
    by_cases hB : B.isEmpty
    · simp [hB, foldState]
    · simp only [Bool.not_eq_true] at hB
      simp [hB, foldState]

/-- A separator arriving over a single pending part leaves the accumulator
unchanged and pushes the separator. -/
theorem step_sep_single (c : Combinator)
    (hc : (c == Combinator.and || c == Combinator.or) = true)
    (out : CTree) (stk : List Char) :
    step (out, '(' :: stk) [sepChar c] = .ok (out, sepChar c :: '(' :: stk) :=
  step_sepChar c hc out out ('(' :: stk) ('(' :: stk)
    (fun cstop hin _ => apply_ops_paren cstop hin out stk)

/-- A separator arriving over two or more pending parts folds them and
pushes the separator. -/
theorem step_sep_multi (c : Combinator)
    (hc : (c == Combinator.and || c == Combinator.or) = true)
    (B : List SOCT) (v1 v2 : SOCT) (rest : List SOCT) (stk : List Char)
    (hvs : ∀ v ∈ v1 :: v2 :: rest, noSame c v = true) :
    step (midState c B (v1 :: v2 :: rest), sepChar c :: '(' :: stk) [sepChar c] =
      .ok (foldState c B (v1 :: v2 :: rest), sepChar c :: '(' :: stk) :=
  step_sepChar c hc _ _ _ _
    (fun cstop hin hout => apply_ops_fold c hc B v1 v2 rest hvs cstop hin hout stk)

/-- Processing one rendered part turns the accumulator into the one-pending-
part middle state over the wrapped previous accumulator. -/
theorem pushPart_first (c : Combinator) (out : CTree) (q : SOCT) :
    pushPart out q = midState c (wrapIf out).parts [q] := by
  cases q with
  | str s => simp [pushPart, midState, wrapIf_comb]
  | ctree c2 ps => simp [pushPart, midState, wrapIf_comb]

/-- A child combinator of a canonical part is never `None`. -/
theorem canonPart_child_ne_none {c c2 : Combinator} {qs : List SOCT}
    (h : canonPart c (SOCT.ctree c2 qs) = true) :
    (c2 == Combinator.none) = false := by
  rw [canonPart] at h
  simp only [Bool.and_eq_true] at h
  rcases Bool.or_eq_true_iff.1 h.1.1.1 with h2 | h2 <;>
    { have := eq_of_beq h2; subst this; rfl }

/-- Pushing a part after a single pending part extends the middle state. -/
theorem pushPart_single (c : Combinator) (B : List SOCT) (v1 p : SOCT)
    (hv1 : canonPart c v1 = true) :
    pushPart (midState c B [v1]) p = midState c B [v1, p] := by
  cases v1 with
  | str s =>
    have hms : midState c B [SOCT.str s] = CTree.mk .none (B ++ [SOCT.str s]) := by
      simp [midState]
    rw [hms]
    cases p with
    | str s2 => simp [pushPart, midState, wrapIf]
    | ctree c3 ps3 => simp [pushPart, midState, wrapIf]
  | ctree c2 qs =>
    have hnn := canonPart_child_ne_none hv1
    by_cases hB : B.isEmpty
    · have hBnil : B = [] := by
        cases B with
        | nil => rfl
        | cons b bs => simp at hB
      subst hBnil
      have hms : midState c [] [SOCT.ctree c2 qs] = CTree.mk c2 qs := by
        simp [midState]
      rw [hms]
      cases p with
      | str s2 => simp [pushPart, midState, wrapIf, hnn]
      | ctree c3 ps3 => simp [pushPart, midState, wrapIf, hnn]
    · simp only [Bool.not_eq_true] at hB
      have hms : midState c B [SOCT.ctree c2 qs] =
          CTree.mk .none (B ++ [SOCT.ctree c2 qs]) := by
        simp [midState, hB]
      rw [hms]
      cases p with
      | str s2 => simp [pushPart, midState, wrapIf]
      | ctree c3 ps3 => simp [pushPart, midState, wrapIf]

/-- Pushing a part after a fold extends the middle state. -/
theorem pushPart_multi (c : Combinator)
    (hc : (c == Combinator.and || c == Combinator.or) = true)
    (B : List SOCT) (v1 v2 : SOCT) (rest : List SOCT) (p : SOCT) :
    pushPart (foldState c B (v1 :: v2 :: rest)) p =
      midState c B (v1 :: v2 :: (rest ++ [p])) := by
  have hnn : (c == Combinator.none) = false := by
    rcases Bool.or_eq_true_iff.1 hc with h2 | h2 <;>
      { have := eq_of_beq h2; subst this; rfl }
  have hdl : (v1 :: v2 :: (rest ++ [p])).dropLast = v1 :: v2 :: rest := by
    rw [show v1 :: v2 :: (rest ++ [p]) = (v1 :: v2 :: rest) ++ [p] by simp]
    exact List.dropLast_concat
  have hgl : (v1 :: v2 :: (rest ++ [p])).getLastD (SOCT.str "") = p := by
    rw [show v1 :: v2 :: (rest ++ [p]) = (v1 :: v2 :: rest) ++ [p] by simp]
    exact List.getLastD_concat _ _ _
  have hms : midState c B (v1 :: v2 :: (rest ++ [p])) =
      CTree.mk .none (B ++ [SOCT.ctree c (v1 :: v2 :: rest), p]) := by
    rw [midState]
    rw [if_neg (by simp)]
    rw [hdl, hgl]
  rw [hms]
  by_cases hB : B.isEmpty
  · have hBnil : B = [] := by
      cases B with
      | nil => rfl
      | cons b bs => simp at hB
    subst hBnil
    have hfs : foldState c [] (v1 :: v2 :: rest) = CTree.mk c (v1 :: v2 :: rest) := by
      simp [foldState]
    rw [hfs]
    cases p with
    | str s2 => simp [pushPart, wrapIf, hnn]
    | ctree c3 ps3 => simp [pushPart, wrapIf, hnn]
  · simp only [Bool.not_eq_true] at hB
    have hfs : foldState c B (v1 :: v2 :: rest) =
        CTree.mk .none (B ++ [SOCT.ctree c (v1 :: v2 :: rest)]) := by
      simp [foldState, hB]
    rw [hfs]
    cases p with
    | str s2 => simp [pushPart, wrapIf]
    | ctree c3 ps3 => simp [pushPart, wrapIf]

/-- The operator-stack shape after appending a part to a nonempty part
list. -/
theorem midStack_app (c : Combinator) (vs : List SOCT) (hne : vs ≠ [])
    (p : SOCT) (stk : List Char) :
    midStack c (vs ++ [p]) stk = sepChar c :: '(' :: stk := by
  cases vs with
  | nil => exact absurd rfl hne
  | cons v1 rest =>
    cases rest with
    | nil => rfl
    | cons v2 r2 => rfl

/-- The token loop splits over appended token lists. -/
theorem runToks_append : ∀ (a b : List (List Char)) (st st2 : CTree × List Char),
    runToks a st = .ok st2 → runToks (a ++ b) st = runToks b st2 := by
  intro a
  induction a with
  | nil =>
    intro b st st2 h
    rw [runToks] at h
    cases h
    rfl
  | cons t restA ih =>
    intro b st st2 h
    rw [runToks] at h
    cases hstep : step st t with
    | error e => rw [hstep] at h; exact absurd h (by simp)
    | ok st3 =>
      rw [hstep] at h
      show runToks (t :: (restA ++ b)) st = runToks b st2
      rw [runToks, hstep]
      exact ih b st3 st2 h

/-- The inner token stream is the first part followed by the separated
tail. -/
theorem innerToks_eq : ∀ (c : Combinator) (p : SOCT) (more : List SOCT),
    innerToks c (p :: more) = partToks p ++ tailToks c more := by
  intro c p more
  induction more generalizing p with
  | nil => simp [innerToks, tailToks]
  | cons q rest ih =>
    show innerToks c (p :: q :: rest) =
      partToks p ++ ([sepChar c] :: (partToks q ++ tailToks c rest))
    rw [innerToks, ih q]

/-- The separator token is structural. -/
theorem delimTok_sep (c : Combinator) : delimTok [sepChar c] = true := by
  cases c <;> rfl

/-- The token stream of a canonical part, followed by any canonical
delimiter-headed stream, is canonical. -/
theorem partToks_good : ∀ p : SOCT, (∃ parent, canonPart parent p = true) →
    ∀ T : List (List Char), headDelim T = true → goodToks T = true →
      goodToks (partToks p ++ T) = true := by
  intro p0
  induction p0 using SOCT.my_ind with
  | hstr s =>
    intro hcanon T hhd hgT
    obtain ⟨parent, hc⟩ := hcanon
    have hleaf : (plainLeafOk s.data || regexLeafOk s.data) = true := hc
    show goodToks (s.data :: T) = true
    rw [goodToks]
    by_cases hdt : delimTok s.data = true
    · simp [hdt, hgT]
    · rw [Bool.not_eq_true] at hdt
      simp [hdt, hgT, hhd, hleaf]
  | hct c ps ih =>
    intro hcanon T hhd hgT
    obtain ⟨parent, hc⟩ := hcanon
    rw [canonPart] at hc
    simp only [Bool.and_eq_true] at hc
    have hparts : canonParts c ps = true := hc.2
    have hinner : ∀ qs, (∀ q ∈ qs, q ∈ ps) →
        ∀ T2 : List (List Char), headDelim T2 = true → goodToks T2 = true →
          goodToks (innerToks c qs ++ T2) = true := by
      intro qs
      induction qs with
      | nil => intro _ T2 _ hg2; exact hg2
      | cons q rest ih2 =>
        intro hsub T2 hh2 hg2
        have hqmem : q ∈ ps := hsub q (by simp)
        have hq : canonPart c q = true := canonParts_mem hparts q hqmem
        cases rest with
        | nil =>
          show goodToks (partToks q ++ T2) = true
          exact ih q hqmem ⟨c, hq⟩ T2 hh2 hg2
        | cons q2 rest2 =>
          show goodToks ((partToks q ++ [sepChar c] :: innerToks c (q2 :: rest2)) ++ T2) = true
          rw [List.append_assoc]
          refine ih q hqmem ⟨c, hq⟩ _ ?_ ?_
          · show headDelim ([sepChar c] :: (innerToks c (q2 :: rest2) ++ T2)) = true
            rw [headDelim]
            exact delimTok_sep c
          · show goodToks ([sepChar c] :: (innerToks c (q2 :: rest2) ++ T2)) = true
            rw [goodToks]
            simp only [delimTok_sep c, if_true, Bool.true_and]
            exact ih2 (fun x hx => hsub x (List.mem_cons_of_mem q hx)) T2 hh2 hg2
    show goodToks ((['('] :: (innerToks c ps ++ [[')']])) ++ T) = true
    rw [List.cons_append, goodToks]
    have hpar : delimTok ['('] = true := by rfl
    simp only [hpar, if_true, Bool.true_and]
    rw [List.append_assoc]
    refine hinner ps (fun q hq => hq) ([[')']] ++ T) ?_ ?_
    · rfl
    · show goodToks ([')'] :: T) = true
      rw [goodToks]
      have hcl : delimTok [')'] = true := by rfl
      simp only [hcl, if_true, Bool.true_and]
      exact hgT

/-- The token stream of a canonical part list, followed by any canonical
delimiter-headed stream, is canonical. -/
theorem innerToks_good (c : Combinator) : ∀ (qs : List SOCT),
    (∀ q ∈ qs, canonPart c q = true) →
    ∀ T : List (List Char), headDelim T = true → goodToks T = true →
      goodToks (innerToks c qs ++ T) = true := by
  intro qs
  induction qs with
  | nil => intro _ T _ hg2; exact hg2
  | cons q rest ih2 =>
    intro hcanons T hh2 hg2
    have hq : canonPart c q = true := hcanons q (by simp)
    cases rest with
    | nil =>
      show goodToks (partToks q ++ T) = true
      exact partToks_good q ⟨c, hq⟩ T hh2 hg2
    | cons q2 rest2 =>
      show goodToks ((partToks q ++ [sepChar c] :: innerToks c (q2 :: rest2)) ++ T) = true
      rw [List.append_assoc]
      refine partToks_good q ⟨c, hq⟩ _ ?_ ?_
      · show headDelim ([sepChar c] :: (innerToks c (q2 :: rest2) ++ T)) = true
        rw [headDelim]
        exact delimTok_sep c
      · show goodToks ([sepChar c] :: (innerToks c (q2 :: rest2) ++ T)) = true
        rw [goodToks]
        simp only [delimTok_sep c, if_true, Bool.true_and]
        exact ih2 (fun x hx => hcanons x (List.mem_cons_of_mem q hx)) T hh2 hg2

/-- Shape of a part list with at least two elements. -/
theorem lengthAtLeast2_cases {ps : List SOCT} (h : lengthAtLeast2 ps = true) :
    ∃ p1 p2 restP, ps = p1 :: p2 :: restP := by
  match ps, h with
  | p1 :: p2 :: restP, _ => exact ⟨p1, p2, restP, rfl⟩

/-- Running the token stream of one canonical rendered part from any state
performs exactly the part push. -/
theorem pushPart_run : ∀ p : SOCT, (∃ parent, canonPart parent p = true) →
    ∀ (out : CTree) (stk : List Char),
      runToks (partToks p) (out, stk) = .ok (pushPart out p, stk) := by
  intro p0
  induction p0 using SOCT.my_ind with
  | hstr s =>
    intro hcanon out stk
    obtain ⟨parent, hc⟩ := hcanon
    have hleaf : leafOk s = true := hc
    show runToks [s.data] (out, stk) = .ok (pushPart out (SOCT.str s), stk)
    rw [runToks, step_leaf s hleaf]
    rfl
  | hct c ps ih =>
    intro hcanon out stk
    obtain ⟨parent, hc⟩ := hcanon
    rw [canonPart] at hc
    simp only [Bool.and_eq_true] at hc
    have hcomb : (c == Combinator.and || c == Combinator.or) = true := hc.1.1.1
    have hlen : lengthAtLeast2 ps = true := hc.1.2
    have hparts : canonParts c ps = true := hc.2
    obtain ⟨p1, p2, restP, rfl⟩ := lengthAtLeast2_cases hlen
    have hcp : ∀ v ∈ p1 :: p2 :: restP, canonPart c v = true :=
      fun v hv => canonParts_mem hparts v hv
    have htail : ∀ (more : List SOCT), (∀ q ∈ more, q ∈ p1 :: p2 :: restP) →
        ∀ (v0 : SOCT) (vs B : List SOCT) (stk2 : List Char),
          (∀ v ∈ v0 :: vs, canonPart c v = true) →
          runToks (tailToks c more) (midState c B (v0 :: vs), midStack c (v0 :: vs) stk2) =
            .ok (midState c B (v0 :: vs ++ more), midStack c (v0 :: vs ++ more) stk2) := by
      intro more
      induction more with
      | nil =>
        intro _ v0 vs B stk2 _
        simp [tailToks, runToks]
      | cons q more2 ihm =>
        intro hsub v0 vs B stk2 hvs
        have hqmem : q ∈ p1 :: p2 :: restP := hsub q (by simp)
        have hq : canonPart c q = true := hcp q hqmem
        show runToks ([sepChar c] :: (partToks q ++ tailToks c more2))
            (midState c B (v0 :: vs), midStack c (v0 :: vs) stk2) = _
        rw [runToks]
        cases vs with
        | nil =>
          simp only [midStack]
          rw [step_sep_single c hcomb]
          show runToks (partToks q ++ tailToks c more2)
            (midState c B [v0], sepChar c :: '(' :: stk2) = _
          rw [runToks_append _ _ _ _ (ih q hqmem ⟨c, hq⟩ _ _)]
          rw [pushPart_single c B v0 q (hvs v0 (by simp))]
          have h3 := ihm (fun x hx => hsub x (List.mem_cons_of_mem q hx)) v0 [q] B stk2
            (by intro v hv
                rcases List.mem_cons.1 hv with rfl | hv2
                · exact hvs v (by simp)
                · rcases List.mem_cons.1 hv2 with rfl | hv3
                  · exact hq
                  · exact absurd hv3 (List.not_mem_nil _))
          exact h3
        | cons v1 vs2 =>
          simp only [midStack]
          rw [step_sep_multi c hcomb B v0 v1 vs2 stk2
            (fun v hv => canonPart_noSame (hvs v hv))]
          show runToks (partToks q ++ tailToks c more2)
            (foldState c B (v0 :: v1 :: vs2), sepChar c :: '(' :: stk2) = _
          rw [runToks_append _ _ _ _ (ih q hqmem ⟨c, hq⟩ _ _)]
          rw [pushPart_multi c hcomb B v0 v1 vs2 q]
          have h3 := ihm (fun x hx => hsub x (List.mem_cons_of_mem q hx)) v0
            (v1 :: (vs2 ++ [q])) B stk2
            (by intro v hv
                rcases List.mem_cons.1 hv with rfl | hv2
                · exact hvs v (by simp)
                · rcases List.mem_cons.1 hv2 with rfl | hv3
                  · exact hvs v (by simp)
                  · rcases List.mem_append.1 hv3 with hv4 | hv4
                    · exact hvs v (by simp [hv4])
                    · rcases List.mem_singleton.1 hv4 with rfl
                      exact hq)
          simp only [List.cons_append, List.append_assoc, List.singleton_append] at h3
          exact h3
    show runToks (['('] :: (innerToks c (p1 :: p2 :: restP) ++ [[')']])) (out, stk) =
      .ok (pushPart out (SOCT.ctree c (p1 :: p2 :: restP)), stk)
    rw [runToks, step_paren]
    show runToks (innerToks c (p1 :: p2 :: restP) ++ [[')']]) (out, '(' :: stk) = _
    rw [innerToks_eq, List.append_assoc]
    rw [runToks_append _ _ _ _ (ih p1 (by simp) ⟨c, hcp p1 (by simp)⟩ out ('(' :: stk))]
    rw [pushPart_first c out p1]
    have h4 := htail (p2 :: restP) (fun x hx => List.mem_cons_of_mem p1 hx)
      p1 [] (wrapIf out).parts stk
      (by intro v hv
          rcases List.mem_cons.1 hv with rfl | hv2
          · exact hcp v (by simp)
          · exact absurd hv2 (List.not_mem_nil _))
    have h4b : runToks (tailToks c (p2 :: restP))
        (midState c (wrapIf out).parts [p1], '(' :: stk) =
        .ok (midState c (wrapIf out).parts (p1 :: p2 :: restP),
             sepChar c :: '(' :: stk) := h4
    rw [runToks_append _ _ _ _ h4b]
    rw [runToks]
    rw [step_close (midState c (wrapIf out).parts (p1 :: p2 :: restP))
      (foldState c (wrapIf out).parts (p1 :: p2 :: restP))
      (sepChar c :: '(' :: stk) stk
      (apply_ops_fold c hcomb (wrapIf out).parts p1 p2 restP
        (fun v hv => canonPart_noSame (hcp v hv)) ['('] (by simp)
        (by cases c <;> decide) stk)]
    show Except.ok (foldState c (wrapIf out).parts (p1 :: p2 :: restP), stk) =
      Except.ok (pushPart out (SOCT.ctree c (p1 :: p2 :: restP)), stk)
    simp only [foldState, pushPart, wrapIf_comb]

/-- Running the separated tail of a canonical part list extends the middle
state part by part. -/
theorem runToks_tail (c : Combinator)
    (hcomb : (c == Combinator.and || c == Combinator.or) = true) :
    ∀ (more : List SOCT), (∀ q ∈ more, canonPart c q = true) →
    ∀ (v0 : SOCT) (vs B : List SOCT) (stk2 : List Char),
      (∀ v ∈ v0 :: vs, canonPart c v = true) →
      runToks (tailToks c more) (midState c B (v0 :: vs), midStack c (v0 :: vs) stk2) =
        .ok (midState c B (v0 :: vs ++ more), midStack c (v0 :: vs ++ more) stk2) := by
  intro more
  induction more with
  | nil =>
    intro _ v0 vs B stk2 _
    simp [tailToks, runToks]
  | cons q more2 ihm =>
    intro hsub v0 vs B stk2 hvs
    have hq : canonPart c q = true := hsub q (by simp)
    show runToks ([sepChar c] :: (partToks q ++ tailToks c more2))
        (midState c B (v0 :: vs), midStack c (v0 :: vs) stk2) = _
    rw [runToks]
    cases vs with
    | nil =>
      simp only [midStack]
      rw [step_sep_single c hcomb]
      show runToks (partToks q ++ tailToks c more2)
        (midState c B [v0], sepChar c :: '(' :: stk2) = _
      rw [runToks_append _ _ _ _ (pushPart_run q ⟨c, hq⟩ _ _)]
      rw [pushPart_single c B v0 q (hvs v0 (by simp))]
      have h3 := ihm (fun x hx => hsub x (List.mem_cons_of_mem q hx)) v0 [q] B stk2
        (by intro v hv
            rcases List.mem_cons.1 hv with rfl | hv2
            · exact hvs v (by simp)
            · rcases List.mem_cons.1 hv2 with rfl | hv3
              · exact hq
              · exact absurd hv3 (List.not_mem_nil _))
      exact h3
    | cons v1 vs2 =>
      simp only [midStack]
      rw [step_sep_multi c hcomb B v0 v1 vs2 stk2
        (fun v hv => canonPart_noSame (hvs v hv))]
      show runToks (partToks q ++ tailToks c more2)
        (foldState c B (v0 :: v1 :: vs2), sepChar c :: '(' :: stk2) = _
      rw [runToks_append _ _ _ _ (pushPart_run q ⟨c, hq⟩ _ _)]
      rw [pushPart_multi c hcomb B v0 v1 vs2 q]
      have h3 := ihm (fun x hx => hsub x (List.mem_cons_of_mem q hx)) v0
        (v1 :: (vs2 ++ [q])) B stk2
        (by intro v hv
            rcases List.mem_cons.1 hv with rfl | hv2
            · exact hvs v (by simp)
            · rcases List.mem_cons.1 hv2 with rfl | hv3
              · exact hvs v (by simp)
              · rcases List.mem_append.1 hv3 with hv4 | hv4
                · exact hvs v (by simp [hv4])
                · rcases List.mem_singleton.1 hv4 with rfl
                  exact hq)
      simp only [List.cons_append, List.append_assoc, List.singleton_append] at h3
      exact h3

/-- `treeify` through an explicit canonical token decomposition of the
parenthesized input. -/
theorem treeify_toks (s : String) (toks : List (List Char)) (out : CTree)
    (hflat : toks.flatten = ("(" ++ s ++ ")").data)
    (hgood : goodToks toks = true)
    (hrun : runToks toks (CTree.mk .none [], []) = .ok (out, [])) :
    treeify s = .ok out := by
  have hlen : toks.length ≤ ("(" ++ s ++ ")").data.length + 1 := by
    have h2 := goodToks_len toks hgood
    rw [hflat] at h2
    omega
  show (match runToks
      (tokenizeL ((("(" ++ s ++ ")").data).length + 1) ("(" ++ s ++ ")").data)
      (CTree.mk .none [], []) with
    | .error e => Except.error e
    | .ok (output, stack) =>
      if stack.isEmpty then Except.ok output
      else Except.error ("unable to convert (" ++ s ++ ") to expression tree")) =
    Except.ok out
  rw [← hflat, tokenize_good toks _ hgood (by rw [hflat]; exact hlen), hrun]
  rfl

/-- C1 groundwork: `treeify` recovers every canonical tree from its
canonical rendering. -/
theorem treeify_render : ∀ t : CTree, canonTop t = true →
    treeify (renderTop t) = .ok t := by
  intro t hcanon
  rcases t with ⟨comb, parts⟩
  rw [canonTop] at hcanon
  simp only at hcanon
  match parts, hcanon with
  | [SOCT.str s], hcanon =>
    have hcnone : comb = Combinator.none := by
      have h1 := (Bool.and_eq_true_iff.1 hcanon).1
      exact eq_of_beq h1
    have hleaf : leafOk s = true := (Bool.and_eq_true_iff.1 hcanon).2
    subst hcnone
    show treeify s = Except.ok (CTree.mk Combinator.none [SOCT.str s])
    refine treeify_toks s [['('], s.data, [')']] _ ?_ ?_ ?_
    · simp [String.data_append]
    · rw [goodToks]
      by_cases hdt : delimTok s.data = true
      · simp only [goodToks, hdt, if_true, Bool.true_and]
        rfl
      · rw [Bool.not_eq_true] at hdt
        have hleaf2 : (plainLeafOk s.data || regexLeafOk s.data) = true := hleaf
        simp only [goodToks, hdt, Bool.false_eq_true, if_false, hleaf2, headDelim,
          Bool.true_and]
        rfl
    · rw [runToks, step_paren]
      show runToks [s.data, [')']] (CTree.mk Combinator.none [], '(' :: []) = _
      rw [runToks, step_leaf s hleaf]
      show runToks [[')']] (CTree.mk Combinator.none [SOCT.str s], '(' :: []) = _
      rw [runToks, step_close _ _ _ _
        (apply_ops_paren ['('] (by simp) (CTree.mk Combinator.none [SOCT.str s]) [])]
      rfl
  | [], hcanon => simp [lengthAtLeast2] at hcanon
  | [SOCT.ctree c2 qs], hcanon => simp [lengthAtLeast2] at hcanon
  | p1 :: p2 :: restP, hcanon =>
    have hc2 : ((comb == Combinator.and || comb == Combinator.or) &&
        lengthAtLeast2 (p1 :: p2 :: restP) &&
        canonParts comb (p1 :: p2 :: restP)) = true := by
      cases p1 <;> exact hcanon
    have hcomb : (comb == Combinator.and || comb == Combinator.or) = true :=
      (Bool.and_eq_true_iff.1 (Bool.and_eq_true_iff.1 hc2).1).1
    have hparts : canonParts comb (p1 :: p2 :: restP) = true :=
      (Bool.and_eq_true_iff.1 hc2).2
    have hcp : ∀ v ∈ p1 :: p2 :: restP, canonPart comb v = true :=
      fun v hv => canonParts_mem hparts v hv
    refine treeify_toks _ (['('] :: (innerToks comb (p1 :: p2 :: restP) ++ [[')']])) _ ?_ ?_ ?_
    · show ('(' :: (innerToks comb (p1 :: p2 :: restP) ++ [[')']]).flatten) =
        ("(" ++ renderTop (CTree.mk comb (p1 :: p2 :: restP)) ++ ")").data
      rw [List.flatten_append, innerToks_join]
      show '(' :: ((renderParts comb (p1 :: p2 :: restP)).data ++ ([')'] ++ [])) =
        ("(" ++ renderParts comb (p1 :: p2 :: restP) ++ ")").data
      simp [String.data_append]
    · show goodToks (['('] :: (innerToks comb (p1 :: p2 :: restP) ++ [[')']])) = true
      rw [goodToks]
      have hpar : delimTok ['('] = true := rfl
      simp only [hpar, if_true, Bool.true_and]
      refine innerToks_good comb (p1 :: p2 :: restP) hcp [[')']] rfl ?_
      rfl
    · rw [runToks, step_paren]
      show runToks (innerToks comb (p1 :: p2 :: restP) ++ [[')']])
        (CTree.mk Combinator.none [], '(' :: []) = _
      rw [innerToks_eq, List.append_assoc]
      rw [runToks_append _ _ _ _ (pushPart_run p1 ⟨comb, hcp p1 (by simp)⟩ _ _)]
      rw [pushPart_first comb (CTree.mk Combinator.none []) p1]
      have h4 := runToks_tail comb hcomb (p2 :: restP)
        (fun x hx => hcp x (List.mem_cons_of_mem p1 hx)) p1 [] [] []
        (by intro v hv
            rcases List.mem_cons.1 hv with rfl | hv2
            · exact hcp v (by simp)
            · exact absurd hv2 (List.not_mem_nil _))
      have h4b : runToks (tailToks comb (p2 :: restP))
          (midState comb (wrapIf (CTree.mk Combinator.none [])).parts [p1], '(' :: []) =
          .ok (midState comb [] (p1 :: p2 :: restP), sepChar comb :: '(' :: []) := h4
      rw [runToks_append _ _ _ _ h4b]
      rw [runToks]
      rw [step_close (midState comb [] (p1 :: p2 :: restP))
        (foldState comb [] (p1 :: p2 :: restP)) (sepChar comb :: '(' :: []) []
        (apply_ops_fold comb hcomb [] p1 p2 restP
          (fun v hv => canonPart_noSame (hcp v hv)) ['('] (by simp)
          (by cases comb <;> decide) [])]
      rfl

/-- C1, counterexample: the empty specifier parses to the empty None tree,
but `untreeify` of that parsed tree errors instead of succeeding, refuting
the claim that every `treeify`-parsed tree round-trips. -/
theorem claim_C1_counterexample :
    treeify "" = .ok (CTree.mk Combinator.none []) ∧
    untreeify (CTree.mk Combinator.none []) =
      .error "Can\x27t combine (stringify) a zero-element ConstraintTree" :=
  ⟨rfl, rfl⟩

/-- C1 (amended): on canonical trees (alternating combinators, at least two
children per node, canonical leaves) the round-trip is exact: `untreeify`
succeeds with the canonical rendering and `treeify` of that rendering
returns the same tree. -/
theorem claim_C1_amended_canonical_roundtrip :
    ∀ t : CTree, canonTop t = true →
      untreeify t = .ok (renderTop t) ∧ treeify (renderTop t) = .ok t :=
  fun t h => ⟨untreeify_render t h, treeify_render t h⟩

/-- C1 witness: a concrete canonical Or tree with a nested And group and a
regex leaf round-trips through `untreeify` and `treeify`. -/
theorem claim_C1_witness :
    canonTop (CTree.mk Combinator.or [SOCT.str "1.5",
      SOCT.ctree Combinator.and [SOCT.str ">1.7", SOCT.str "<1.8"],
      SOCT.str "^2.0$"]) = true ∧
    untreeify (CTree.mk Combinator.or [SOCT.str "1.5",
      SOCT.ctree Combinator.and [SOCT.str ">1.7", SOCT.str "<1.8"],
      SOCT.str "^2.0$"]) = .ok "1.5|(>1.7,<1.8)|^2.0$" ∧
    treeify "1.5|(>1.7,<1.8)|^2.0$" = .ok (CTree.mk Combinator.or [SOCT.str "1.5",
      SOCT.ctree Combinator.and [SOCT.str ">1.7", SOCT.str "<1.8"],
      SOCT.str "^2.0$"]) := by
  refine ⟨rfl, ?_, ?_⟩
  · have h := (claim_C1_amended_canonical_roundtrip (CTree.mk Combinator.or
      [SOCT.str "1.5", SOCT.ctree Combinator.and [SOCT.str ">1.7", SOCT.str "<1.8"],
       SOCT.str "^2.0$"]) rfl).1
    exact h.trans (by rfl)
  · have h := (claim_C1_amended_canonical_roundtrip (CTree.mk Combinator.or
      [SOCT.str "1.5", SOCT.ctree Combinator.and [SOCT.str ">1.7", SOCT.str "<1.8"],
       SOCT.str "^2.0$"]) rfl).2
    exact h
